import Mathlib

/-!
Verification of the ycore/markdown static documentation pipeline.

The build side (src/plugins/markdown-plugin.ts) converts a tree of Markdown
files into JSON artifacts: a global manifest plus either a single content
file or one content chunk per folder.  The runtime side (src/markdown-data.ts)
fetches those artifacts with a gzip-first fallback and in-memory caches.

This development shallowly embeds the data model and the operations of those
files.  JavaScript `Map` objects are modelled as insertion-ordered association
lists (`mapGet`/`mapSet`), strings as Lean `String`, file contents are not
modelled (change detection in the source only ever reads mtime and size),
and asynchronous functions become pure functions threading explicit state,
with fetch results supplied per call site as `Except`/`FetchOutcome` oracles.
-/

/-! ## JavaScript Map model

`Map.prototype.get` returns the value of the matching key, `Map.prototype.set`
overwrites an existing key in place or appends a fresh one; iteration order is
insertion order. -/

def mapGet {A : Type} (m : List (String × A)) (k : String) : Option A :=
  (m.find? (fun p => p.1 == k)).map (fun p => p.2)

def mapSet {A : Type} (m : List (String × A)) (k : String) (v : A) : List (String × A) :=
  if m.any (fun p => p.1 == k) then
    m.map (fun p => if p.1 == k then (k, v) else p)
  else
    m ++ [(k, v)]

/-! ## Data model (src/@types/markdown.types.ts)

Only the fields the verified operations read are carried.  `_mtime`/`_size`
are optional in the TypeScript type, hence `Option Nat`; frontmatter scalars
are irrelevant to every claim and are dropped. -/

structure FileMetadata where
  mtime : Nat
  size : Nat
deriving DecidableEq, Repr

structure MarkdownMeta where
  slug : String
  path : String
  folder : Option String
  mtime : Option Nat
  size : Option Nat
deriving DecidableEq, Repr

inductive BuildMode where
  | single
  | chunked
deriving DecidableEq, Repr

structure GlobalManifest where
  documents : List MarkdownMeta
  buildMode : BuildMode
  chunkedFolders : Option (List String)
deriving DecidableEq, Repr

structure MarkdownContent where
  frontmatter : List (String × String)
  content : String
deriving DecidableEq, Repr

abbrev ContentMap := List (String × MarkdownContent)

/-! ## Path helpers

`dirname` embeds Node's `path.dirname` on the separator-normalised relative
paths produced by `path.relative`: the characters before the last slash, or
`"."` when there is none. -/

def dirname (rel : String) : String :=
  match rel.data.reverse.dropWhile (fun c => c != '/') with
  | [] => "."
  | _ :: t => String.mk t.reverse

/-- Folder key used to group files into chunks
(src/plugins/markdown-plugin.ts line 111). -/
def chunkOf (rel : String) : String :=
  if dirname rel = "." then "root" else dirname rel

/-- Folder field stored in a manifest entry
(src/plugins/markdown-plugin.ts lines 222 and 258). -/
def folderOf (rel : String) : Option String :=
  if dirname rel = "." then none else some (dirname rel)

/-- Runtime folder selection `docMeta.folder || 'root'`
(src/markdown-data.ts line 184); the empty string is falsy in JavaScript. -/
def lookupFolder (folder : Option String) : String :=
  match folder with
  | none => "root"
  | some f => if f = "" then "root" else f

/-! ## Change detection (src/plugins/markdown-plugin.ts lines 121-198)

The current file tree is a list of `(relative path, metadata)` pairs, the
entries of the `Map` built by `collectMarkdownFilesWithMetadata`. -/

def isFileChanged (prev : Option MarkdownMeta) (current : FileMetadata) : Bool :=
  match prev with
  | none => true
  | some p => p.mtime != some current.mtime || p.size != some current.size

/-- `new Map(previous.map(entry => [entry.path, entry]))` from
`checkForChanges`. -/
def previousMapOf (previous : List MarkdownMeta) : List (String × MarkdownMeta) :=
  previous.foldl (fun acc e => mapSet acc e.path e) []

/-- `checkForChanges` (lines 125-140): reports a change as soon as some
current file is new or has different mtime/size, otherwise when the previous
entry count differs from the current file count. -/
def checkForChanges (previous : List MarkdownMeta)
    (current : List (String × FileMetadata)) : Bool :=
  if current.any (fun pf => isFileChanged (mapGet (previousMapOf previous) pf.1) pf.2) then
    true
  else
    decide (previous.length ≠ current.length)

/-- In single mode `buildStart` (lines 420-427) reprocesses the whole
current file set when `checkForChanges` reports a change, and nothing
otherwise. -/
def singleModeProcessed (previous : List MarkdownMeta)
    (current : List (String × FileMetadata)) : List (String × FileMetadata) :=
  if checkForChanges previous current then current else []

/-- `collectFilesByFolder` (lines 106-119): group the collected files into a
Map of Maps keyed by folder. -/
def collectFilesByFolder (files : List (String × FileMetadata)) :
    List (String × List (String × FileMetadata)) :=
  files.foldl
    (fun acc pf =>
      let folder := chunkOf pf.1
      mapSet acc folder (mapSet ((mapGet acc folder).getD []) pf.1 pf.2))
    []

/-- Grouping of the previous manifest by folder inside `checkForFolderChanges`
(lines 156-165). -/
def prevFilesByFolder (prev : List MarkdownMeta) :
    List (String × List (String × MarkdownMeta)) :=
  prev.foldl
    (fun acc meta =>
      let folder := lookupFolder meta.folder
      mapSet acc folder (mapSet ((mapGet acc folder).getD []) meta.path meta))
    []

/-- Per-folder change test of `checkForFolderChanges` (lines 177-194). -/
def folderChanged (prevFiles : List (String × MarkdownMeta))
    (files : List (String × FileMetadata)) : Bool :=
  if files.any (fun pf => isFileChanged (mapGet prevFiles pf.1) pf.2) then
    true
  else
    decide (prevFiles.length ≠ files.length)

/-- `checkForFolderChanges` (lines 142-198), returning the changed folder
set in current-folder order; with `incrementalByFolder` disabled every
current folder is marked changed. -/
def checkForFolderChanges (incrementalByFolder : Bool) (prev : List MarkdownMeta)
    (current : List (String × FileMetadata)) : List String :=
  let allFolders := collectFilesByFolder current
  if !incrementalByFolder then
    allFolders.map (fun g => g.1)
  else
    let pbf := prevFilesByFolder prev
    allFolders.filterMap (fun g =>
      match mapGet pbf g.1 with
      | none => some g.1
      | some prevFiles => if folderChanged prevFiles g.2 then some g.1 else none)

/-! ## Slugs (src/plugins/markdown-plugin.ts lines 221 and 257)

`relPath.replace(new RegExp(extension + "$"), '')`: for a path that ends in
the extension the regular expression (each character matching one character,
anchored at the end) matches exactly the final `extension.length` characters,
so the slug is the path with that suffix removed. -/

def strEndsWith (s t : String) : Bool :=
  s.data.drop (s.data.length - t.data.length) == t.data

def stripExt (ext rel : String) : String :=
  String.mk (rel.data.take (rel.data.length - ext.data.length))

/-- Slugs entered into the manifest by `processChangedFiles` /
`processFolderFiles`: one per successfully processed file (`ok` models the
per-file error branch, which skips the `manifest.push`). -/
def buildManifestSlugs (ext : String) (ok : String → Bool)
    (files : List (String × FileMetadata)) : List String :=
  (files.filter (fun pf => ok pf.1)).map (fun pf => stripExt ext pf.1)

/-! ## Claim-side (spec-worded) change predicates, for refinement
comparison with the code-derived definitions above. -/

/-- The claim's characterisation of a detected change: some current file is
new, or differs in mtime or size from its previous entry, or the counts
differ. -/
def ChangedSpec (previous : List MarkdownMeta)
    (current : List (String × FileMetadata)) : Prop :=
  (∃ pf ∈ current,
      (∀ e ∈ previous, e.path ≠ pf.1) ∨
      ∃ e ∈ previous, e.path = pf.1 ∧
        (e.mtime ≠ some pf.2.mtime ∨ e.size ≠ some pf.2.size)) ∨
  previous.length ≠ current.length

/-- Previous manifest entries belonging to a folder (the claim's reading of
"files of that folder in the previous manifest"). -/
def prevInFolder (prev : List MarkdownMeta) (folder : String) : List MarkdownMeta :=
  prev.filter (fun e => lookupFolder e.folder == folder)

/-- The claim's characterisation of a changed folder: it occurs in the
current tree and is new, or contains a new/modified file, or its previous
file count differs. -/
def FolderChangedSpec (prev : List MarkdownMeta)
    (cur : List (String × FileMetadata)) (folder : String) : Prop :=
  ∃ fl, (folder, fl) ∈ collectFilesByFolder cur ∧
    (prevInFolder prev folder = [] ∨
     (∃ pf ∈ fl,
        (∀ e ∈ prevInFolder prev folder, e.path ≠ pf.1) ∨
        ∃ e ∈ prevInFolder prev folder, e.path = pf.1 ∧
          (e.mtime ≠ some pf.2.mtime ∨ e.size ≠ some pf.2.size)) ∨
     (prevInFolder prev folder).length ≠ fl.length)

/-- The claim's notion of the changed files themselves (single mode). -/
def changedFilesSpec (previous : List MarkdownMeta)
    (current : List (String × FileMetadata)) : List (String × FileMetadata) :=
  current.filter (fun pf => isFileChanged (mapGet (previousMapOf previous) pf.1) pf.2)

/-! ## Global manifest writer (src/plugins/markdown-plugin.ts lines 338-369)

`...(chunkByFolder && chunkedFolders && { chunkedFolders })`: the field is
spread in exactly when `chunkByFolder` is true and the argument was supplied
(a supplied array, even empty, is truthy in JavaScript). -/

def writeGlobalManifest (chunkByFolder : Bool) (manifest : List MarkdownMeta)
    (chunkedFolders : Option (List String)) : GlobalManifest :=
  { documents := manifest,
    buildMode := if chunkByFolder then .chunked else .single,
    chunkedFolders := if chunkByFolder then chunkedFolders else none }

/-! ## Runtime fetch with gzip fallback (src/markdown-data.ts lines 25-72)

A fetch attempt is summarised by its observable outcome: the fetch call threw,
the response was not ok, the response was ok and its body decoded and parsed
to a value, or the response was ok but decoding/parsing threw. -/

inductive FetchOutcome (T : Type) where
  | fetchError
  | notOk
  | okBody (t : T)
  | okBadBody
deriving DecidableEq, Repr

/-- Removes the first occurrence of `pat` from a character list
(JavaScript `String.prototype.replace` with a string pattern and empty
replacement). -/
def dropFirstMatch (pat : List Char) : List Char → List Char
  | [] => []
  | c :: cs =>
    if (c :: cs).take pat.length = pat then (c :: cs).drop pat.length
    else c :: dropFirstMatch pat cs

def jsReplaceFirst (s pat : String) : String :=
  String.mk (dropFirstMatch pat.data s.data)

/-- `const baseUrl = url.endsWith('.gz') ? url.replace('.gz', '') : url`. -/
def baseUrlOf (url : String) : String :=
  if strEndsWith url ".gz" then jsReplaceFirst url ".gz" else url

/-- "`${baseUrl}.gz`". -/
def gzUrlOf (url : String) : String :=
  baseUrlOf url ++ ".gz"

/-- `fetchContent`, given the outcomes of the compressed and the uncompressed
attempt: an ok compressed response with a good body returns its value; any
other compressed outcome (thrown fetch, non-ok response, or a body that fails
to decompress/parse, all of which reach the fallback in the source) defers to
the uncompressed attempt, which returns its value when ok and throws
otherwise. -/
def fetchContent {T : Type} (gz base : FetchOutcome T) : Except String T :=
  match gz with
  | .okBody t => .ok t
  | _ =>
    match base with
    | .okBody t => .ok t
    | _ => .error "Failed to fetch both compressed and uncompressed versions"

/-! ## Runtime caches (src/markdown-data.ts)

The module-level caches become an explicit state record; every operation
returns its result, the successor state, and the list of fetches it
performed. -/

inductive FetchEvent where
  | manifest
  | content
  | folder (f : String)
deriving DecidableEq, Repr

structure DataCache where
  manifestCache : Option (List MarkdownMeta)
  globalManifestCache : Option GlobalManifest
  contentCache : Option ContentMap
  folderContentCache : List (String × ContentMap)
deriving DecidableEq, Repr

def emptyCache : DataCache :=
  { manifestCache := none, globalManifestCache := none,
    contentCache := none, folderContentCache := [] }

/-- `getGlobalManifest` (lines 81-94): cache hit returns the cached value;
otherwise fetch, caching on success and returning the default
`{ documents: [], _buildMode: 'single' }` on failure without caching. -/
def getGlobalManifest (fetchG : Except Unit GlobalManifest) (st : DataCache) :
    GlobalManifest × DataCache × List FetchEvent :=
  match st.globalManifestCache with
  | some g => (g, st, [])
  | none =>
    match fetchG with
    | .ok g => (g, { st with globalManifestCache := some g }, [.manifest])
    | .error _ =>
      ({ documents := [], buildMode := .single, chunkedFolders := none }, st, [.manifest])

/-- The `({ _mtime, _size, ...item })` destructuring of line 108. -/
def cleanMeta (m : MarkdownMeta) : MarkdownMeta :=
  { m with mtime := none, size := none }

/-- `getMarkdownManifest` (lines 100-112). -/
def getMarkdownManifest (fetchG : Except Unit GlobalManifest) (st : DataCache) :
    List MarkdownMeta × DataCache × List FetchEvent :=
  match st.manifestCache with
  | some m => (m, st, [])
  | none =>
    let r := getGlobalManifest fetchG st
    let clean := r.1.documents.map cleanMeta
    (clean, { r.2.1 with manifestCache := some clean }, r.2.2)

/-- `getMarkdownContent` (lines 122-142): in chunked mode returns the empty
record before consulting the content cache; otherwise cache hit, or fetch
with caching only on success. -/
def getMarkdownContent (fetchG : Except Unit GlobalManifest)
    (fetchC : Except Unit ContentMap) (st : DataCache) :
    ContentMap × DataCache × List FetchEvent :=
  let r := getGlobalManifest fetchG st
  let st1 := r.2.1
  if r.1.buildMode = .chunked then ([], st1, r.2.2)
  else
    match st1.contentCache with
    | some c => (c, st1, r.2.2)
    | none =>
      match fetchC with
      | .ok c => (c, { st1 with contentCache := some c }, r.2.2 ++ [.content])
      | .error _ => ([], st1, r.2.2 ++ [.content])

/-- `loadFolderContent` (lines 147-166). -/
def loadFolderContent (folder : String) (fetchF : Except Unit ContentMap)
    (st : DataCache) : ContentMap × DataCache × List FetchEvent :=
  match mapGet st.folderContentCache folder with
  | some c => (c, st, [])
  | none =>
    match fetchF with
    | .ok c =>
      (c, { st with folderContentCache := mapSet st.folderContentCache folder c },
       [.folder folder])
    | .error _ => ([], st, [.folder folder])

/-- `getMarkdownDocument` (lines 171-192).  Each internal fetch site gets its
own outcome oracle: `fG1` for the leading `getGlobalManifest`, `fG2` for the
manifest fetch a nested `getMarkdownManifest`/`getMarkdownContent` may
perform, `fCF` for the folder chunk or the single content file. -/
def getMarkdownDocument (slug : String) (fG1 fG2 : Except Unit GlobalManifest)
    (fCF : Except Unit ContentMap) (st : DataCache) :
    Option MarkdownContent × DataCache × List FetchEvent :=
  let r1 := getGlobalManifest fG1 st
  if r1.1.buildMode = .chunked then
    let r2 := getMarkdownManifest fG2 r1.2.1
    match r2.1.find? (fun d => d.slug == slug) with
    | none => (none, r2.2.1, r1.2.2 ++ r2.2.2)
    | some docMeta =>
      let folder := lookupFolder docMeta.folder
      let r3 := loadFolderContent folder fCF r2.2.1
      (mapGet r3.1 slug, r3.2.1, r1.2.2 ++ r2.2.2 ++ r3.2.2)
  else
    let r2 := getMarkdownContent fG2 fCF r1.2.1
    (mapGet r2.1 slug, r2.2.1, r1.2.2 ++ r2.2.2)

/-- `clearMarkdownCache` (lines 201-206). -/
def clearMarkdownCache (st : DataCache) : DataCache :=
  let _ := st
  emptyCache

/-- One runtime data operation together with its fetch oracles; used to state
that no operation ever evicts or overwrites an already-populated cache. -/
inductive DataOp where
  | getGM (fG : Except Unit GlobalManifest)
  | getMM (fG : Except Unit GlobalManifest)
  | getMC (fG : Except Unit GlobalManifest) (fC : Except Unit ContentMap)
  | getMD (slug : String) (fG1 fG2 : Except Unit GlobalManifest) (fCF : Except Unit ContentMap)
  | loadFC (folder : String) (fF : Except Unit ContentMap)

def runDataOp (op : DataOp) (st : DataCache) : DataCache :=
  match op with
  | .getGM fG => (getGlobalManifest fG st).2.1
  | .getMM fG => (getMarkdownManifest fG st).2.1
  | .getMC fG fC => (getMarkdownContent fG fC st).2.1
  | .getMD slug fG1 fG2 fCF => (getMarkdownDocument slug fG1 fG2 fCF st).2.1
  | .loadFC folder fF => (loadFolderContent folder fF st).2.1

/-! ## Slug validation (src/markdown-utils.ts lines 9-35)

The valibot pipeline: string check, trim, minimum length 1, character-class
regular expression, then the three custom checks, each failure raising a 400
Response. -/

inductive SlugInput where
  | str (s : String)
  | nonString
deriving DecidableEq, Repr

def slugCharOk (c : Char) : Bool :=
  c.isAlpha || c.isDigit || c == '-' || c == '_' || c == '/'

def hasDotDot : List Char → Bool
  | [] => false
  | [_] => false
  | a :: b :: t => (a == '.' && b == '.') || hasDotDot (b :: t)

def validateDocumentSlug (input : SlugInput) : Except Nat String :=
  match input with
  | .nonString => .error 400
  | .str s =>
    let t := s.trim
    if t.length = 0 then .error 400
    else if !(t.data.all slugCharOk) then .error 400
    else if hasDotDot t.data then .error 400
    else if t.data.head? = some '/' then .error 400
    else if t.data.getLast? = some '/' then .error 400
    else .ok t

/-- Claim-side validity condition on the trimmed string. -/
def SlugOkSpec (t : String) : Prop :=
  t ≠ "" ∧ (∀ c ∈ t.data, slugCharOk c = true) ∧
  (¬ ∃ a b, t.data = a ++ '.' :: '.' :: b) ∧
  t.data.head? ≠ some '/' ∧ t.data.getLast? ≠ some '/'

/-! ### Helper lemmas about the JavaScript Map model -/

theorem mapGet_nil {A : Type} (k : String) : mapGet ([] : List (String × A)) k = none := rfl

theorem mapGet_append_fresh {A : Type} (m : List (String × A)) (k : String) (v : A)
    (k2 : String) :
    mapGet (m ++ [(k, v)]) k2 = ((mapGet m k2).or (if k = k2 then some v else none)) := by
  induction m with
  | nil =>
    simp only [List.nil_append, mapGet, List.find?]
    by_cases h : k = k2
    · simp [h]
    · have : (k == k2) = false := by simpa using h
      simp [this, h]
  | cons a t ih =>
    simp only [List.cons_append, mapGet, List.find?]
    by_cases h : a.1 = k2
    · have : (a.1 == k2) = true := by simpa using h
      simp [this, Option.or]
    · have : (a.1 == k2) = false := by simpa using h
      simpa [this, mapGet] using ih

theorem mapSet_fresh {A : Type} (m : List (String × A)) (k : String) (v : A)
    (h : ∀ p ∈ m, p.1 ≠ k) : mapSet m k v = m ++ [(k, v)] := by
  have hany : m.any (fun p => p.1 == k) = false := by
    simp only [List.any_eq_false]
    intro p hp
    simpa using h p hp
  simp [mapSet, hany]

theorem mapGet_eq_none_iff {A : Type} (m : List (String × A)) (k : String) :
    mapGet m k = none ↔ ∀ p ∈ m, p.1 ≠ k := by
  simp only [mapGet, Option.map_eq_none', List.find?_eq_none, beq_iff_eq]

theorem mapGet_mem {A : Type} {m : List (String × A)} {k : String} {v : A}
    (h : mapGet m k = some v) : (k, v) ∈ m := by
  simp only [mapGet, Option.map_eq_some'] at h
  obtain ⟨p, hp, hv⟩ := h
  have hmem := List.mem_of_find?_eq_some hp
  have hkey : p.1 = k := by
    have := List.find?_some hp
    simpa using this
  have : p = (k, v) := by
    cases p
    simp_all
  simpa [this] using hmem

theorem mapGet_cons {A : Type} (a : String × A) (t : List (String × A)) (k : String) :
    mapGet (a :: t) k = if a.1 = k then some a.2 else mapGet t k := by
  by_cases h : a.1 = k
  · have hb : (a.1 == k) = true := by simpa using h
    simp [mapGet, List.find?, hb, h]
  · have hb : (a.1 == k) = false := by simpa using h
    simp [mapGet, List.find?, hb, h]

theorem mapGet_isSome_of_any {A : Type} (m : List (String × A)) (k : String)
    (h : m.any (fun p => p.1 == k) = true) : ∃ w, mapGet m k = some w := by
  cases hg : mapGet m k with
  | some w => exact ⟨w, rfl⟩
  | none =>
    rw [List.any_eq_true] at h
    obtain ⟨p, hp, hk⟩ := h
    exact absurd (by simpa using hk) ((mapGet_eq_none_iff m k).mp hg p hp)

theorem mapGet_replace {A : Type} (m : List (String × A)) (k : String) (v : A) (k2 : String) :
    mapGet (m.map (fun p => if p.1 == k then (k, v) else p)) k2 =
      if k = k2 then (mapGet m k).map (fun _ => v) else mapGet m k2 := by
  induction m with
  | nil => by_cases h : k = k2 <;> simp [mapGet, h]
  | cons a t ih =>
    by_cases ha : a.1 = k
    · have hb : (a.1 == k) = true := by simpa using ha
      by_cases h2 : k = k2
      · subst h2
        simp [mapGet_cons, hb, ha]
      · have hne : ¬ a.1 = k2 := fun hc => h2 (ha ▸ hc)
        have ih2 := ih
        rw [if_neg h2] at ih2
        simp only [beq_iff_eq] at ih2
        simp [mapGet_cons, ha, hne, h2, ih2]
    · have hb : (a.1 == k) = false := by simpa using ha
      by_cases h2 : k = k2
      · subst h2
        have ih2 := ih
        rw [if_pos rfl] at ih2
        simp only [beq_iff_eq] at ih2
        simp [mapGet_cons, ha, ih2]
      · by_cases hc : a.1 = k2
        · have hck : ¬ k2 = k := fun hh => h2 hh.symm
          simp [mapGet_cons, ha, hc, h2, hck]
        · have ih2 := ih
          rw [if_neg h2] at ih2
          simp only [beq_iff_eq] at ih2
          simp [mapGet_cons, ha, hc, h2, ih2]

theorem mapGet_mapSet {A : Type} (m : List (String × A)) (k : String) (v : A) (k2 : String) :
    mapGet (mapSet m k v) k2 = if k = k2 then some v else mapGet m k2 := by
  cases hany : m.any (fun p => p.1 == k) with
  | true =>
    simp only [mapSet, hany, if_true, mapGet_replace]
    by_cases h2 : k = k2
    · subst h2
      obtain ⟨w, hw⟩ := mapGet_isSome_of_any m k hany
      simp [hw]
    · simp [h2]
  | false =>
    simp only [mapSet, hany, Bool.false_eq_true, if_false, mapGet_append_fresh]
    by_cases h2 : k = k2
    · subst h2
      have hnone : mapGet m k = none := by
        rw [mapGet_eq_none_iff]
        intro p hp he
        rw [List.any_eq_false] at hany
        exact hany p hp (by simpa using he)
      simp [hnone, Option.or]
    · cases mapGet m k2 <;> simp [h2, Option.or]

theorem mapSet_keys {A : Type} (m : List (String × A)) (k : String) (v : A) :
    (mapSet m k v).map (fun p => p.1) =
      if m.any (fun p => p.1 == k) then m.map (fun p => p.1)
      else m.map (fun p => p.1) ++ [k] := by
  cases hany : m.any (fun p => p.1 == k) with
  | true =>
    simp only [mapSet, hany, if_true, List.map_map]
    apply List.map_congr_left
    intro p _
    by_cases hpk : p.1 = k
    · simp [hpk]
    · simp [hpk]
  | false =>
    simp [mapSet, hany]

theorem mapSet_keys_nodup {A : Type} (m : List (String × A)) (k : String) (v : A)
    (h : (m.map (fun p => p.1)).Nodup) :
    ((mapSet m k v).map (fun p => p.1)).Nodup := by
  rw [mapSet_keys]
  cases hany : m.any (fun p => p.1 == k) with
  | true => simpa [hany] using h
  | false =>
    simp only [hany, Bool.false_eq_true, if_false]
    rw [List.nodup_append]
    refine ⟨h, List.nodup_singleton k, ?_⟩
    intro x hx hk
    rw [List.any_eq_false] at hany
    rw [List.mem_map] at hx
    obtain ⟨p, hp, hpx⟩ := hx
    rw [List.mem_singleton] at hk
    exact hany p hp (by simp [hpx, hk])

theorem mem_iff_mapGet {A : Type} (m : List (String × A))
    (h : (m.map (fun p => p.1)).Nodup) (k : String) (v : A) :
    (k, v) ∈ m ↔ mapGet m k = some v := by
  constructor
  · intro hmem
    induction m with
    | nil => simp at hmem
    | cons a t ih =>
      rw [List.map_cons, List.nodup_cons] at h
      rcases List.mem_cons.mp hmem with heq | ht
      · rw [← heq, mapGet_cons]
        simp
      · rw [mapGet_cons]
        have hk : k ∈ t.map (fun p => p.1) := List.mem_map.mpr ⟨(k, v), ht, rfl⟩
        have hne : a.1 ≠ k := fun hc => h.1 (hc ▸ hk)
        rw [if_neg hne]
        exact ih h.2 ht
  · exact mapGet_mem

/-! ### Grouping folds

Both `collectFilesByFolder` and `prevFilesByFolder` are instances of the same
Map-of-Maps grouping fold; `groupFold_get` characterises the resulting groups
as filters of the input list. -/

def groupFold {B C : Type} (key sub : B → String) (val : B → C) (l : List B) :
    List (String × List (String × C)) :=
  l.foldl
    (fun acc e =>
      mapSet acc (key e) (mapSet ((mapGet acc (key e)).getD []) (sub e) (val e)))
    []

theorem collectFilesByFolder_eq_groupFold (files : List (String × FileMetadata)) :
    collectFilesByFolder files =
      groupFold (fun pf => chunkOf pf.1) (fun pf => pf.1) (fun pf => pf.2) files := rfl

theorem prevFilesByFolder_eq_groupFold (prev : List MarkdownMeta) :
    prevFilesByFolder prev =
      groupFold (fun e => lookupFolder e.folder) (fun e => e.path) (fun e => e) prev := rfl

theorem groupFold_append {B C : Type} (key sub : B → String) (val : B → C)
    (l : List B) (e : B) :
    groupFold key sub val (l ++ [e]) =
      mapSet (groupFold key sub val l) (key e)
        (mapSet ((mapGet (groupFold key sub val l) (key e)).getD []) (sub e) (val e)) := by
  simp [groupFold, List.foldl_append]

theorem groupFold_keys_nodup {B C : Type} (key sub : B → String) (val : B → C)
    (l : List B) : ((groupFold key sub val l).map (fun p => p.1)).Nodup := by
  induction l using List.reverseRecOn with
  | nil => simp [groupFold]
  | append_singleton l e ih =>
    rw [groupFold_append]
    exact mapSet_keys_nodup _ _ _ ih

theorem groupFold_get {B C : Type} (key sub : B → String) (val : B → C) (l : List B)
    (hnd : (l.map sub).Nodup) (folder : String) :
    mapGet (groupFold key sub val l) folder =
      if (l.filter (fun e => key e == folder)).isEmpty then none
      else some ((l.filter (fun e => key e == folder)).map (fun e => (sub e, val e))) := by
  induction l using List.reverseRecOn with
  | nil => simp [groupFold, mapGet]
  | append_singleton l e ih =>
    rw [List.map_append] at hnd
    obtain ⟨h1, _, hdisj⟩ := List.nodup_append.mp hnd
    have ih2 := ih h1
    rw [groupFold_append, mapGet_mapSet, List.filter_append]
    by_cases hkey : key e = folder
    · subst hkey
      have hkb : (key e == key e) = true := by simp
      rw [if_pos rfl, ih2]
      by_cases hemp : (l.filter (fun x => key x == key e)).isEmpty
      · have hnil : l.filter (fun x => key x == key e) = [] := by
          simpa [List.isEmpty_iff] using hemp
        simp [hnil, hkb, mapSet]
      · rw [if_neg hemp, Option.getD_some]
        have hfresh : ∀ p ∈ (l.filter (fun x => key x == key e)).map
            (fun x => (sub x, val x)), p.1 ≠ sub e := by
          intro p hp hc
          rw [List.mem_map] at hp
          obtain ⟨x, hx, hpx⟩ := hp
          have hxl : x ∈ l := List.mem_of_mem_filter hx
          have hsx : sub x = sub e := by
            have := congrArg Prod.fst hpx
            simpa [hc] using this
          exact hdisj (hsx ▸ List.mem_map_of_mem sub hxl) (by simp)
        rw [mapSet_fresh _ _ _ hfresh]
        have hne2 : ¬ ((l.filter (fun x => key x == key e)) ++
            [e].filter (fun x => key x == key e)).isEmpty = true := by
          simp [List.isEmpty_iff, List.filter_cons, hkb]
        rw [if_neg hne2]
        simp [hkb, List.filter_cons]
    · have hkb : (key e == folder) = false := by simpa using hkey
      rw [if_neg hkey, ih2]
      simp [hkb]

theorem map_pair_eta {X Y : Type} (l : List (X × Y)) :
    l.map (fun p => (p.1, p.2)) = l := by
  simp

/-! ### The previous-manifest Map (single mode) -/

theorem previousMapOf_append (prev : List MarkdownMeta) (e : MarkdownMeta) :
    previousMapOf (prev ++ [e]) = mapSet (previousMapOf prev) e.path e := by
  simp [previousMapOf, List.foldl_append]

theorem previousMapOf_eq (prev : List MarkdownMeta)
    (h : (prev.map (fun e => e.path)).Nodup) :
    previousMapOf prev = prev.map (fun e => (e.path, e)) := by
  induction prev using List.reverseRecOn with
  | nil => rfl
  | append_singleton l e ih =>
    rw [List.map_append] at h
    obtain ⟨h1, _, hdisj⟩ := List.nodup_append.mp h
    rw [previousMapOf_append, ih h1, mapSet_fresh]
    · simp
    · intro p hp
      rw [List.mem_map] at hp
      obtain ⟨x, hx, hpx⟩ := hp
      intro hc
      have hsx : x.path = e.path := by
        have := congrArg Prod.fst hpx
        simpa [hc] using this
      exact hdisj (List.mem_map_of_mem _ hx) (by simp [hsx])

theorem mapGet_map_pairs {B : Type} (key : B → String) (l : List B) (p : String) :
    mapGet (l.map (fun e => (key e, e))) p = l.find? (fun e => key e == p) := by
  induction l with
  | nil => rfl
  | cons a t ih =>
    rw [List.map_cons, mapGet_cons]
    by_cases h : key a = p
    · simp [List.find?_cons, h]
    · have hb : (key a == p) = false := by simpa using h
      simp [List.find?_cons, hb, h, ih]

/-! ### Declarative characterisation of the mtime/size change test -/

theorem isFileChanged_find_iff (L : List MarkdownMeta)
    (hnd : (L.map (fun e => e.path)).Nodup) (p : String) (m : FileMetadata) :
    isFileChanged (L.find? (fun e => e.path == p)) m = true ↔
      ((∀ e ∈ L, e.path ≠ p) ∨
       ∃ e ∈ L, e.path = p ∧ (e.mtime ≠ some m.mtime ∨ e.size ≠ some m.size)) := by
  cases hf : L.find? (fun e => e.path == p) with
  | none =>
    have hall : ∀ e ∈ L, e.path ≠ p := by
      intro e he
      have := List.find?_eq_none.mp hf e he
      simpa using this
    simp only [isFileChanged, true_iff]
    exact Or.inl hall
  | some q =>
    have hq : q.path = p := by simpa using List.find?_some hf
    have hqL : q ∈ L := List.mem_of_find?_eq_some hf
    constructor
    · intro hch
      right
      refine ⟨q, hqL, hq, ?_⟩
      simpa [isFileChanged] using hch
    · intro hr
      rcases hr with hall | ⟨e, heL, hep, hmis⟩
      · exact absurd hq (hall q hqL)
      · have heq : e = q :=
          List.inj_on_of_nodup_map hnd heL hqL (by rw [hep, hq])
        subst heq
        simpa [isFileChanged] using hmis

theorem checkForChanges_iff (prev : List MarkdownMeta)
    (cur : List (String × FileMetadata))
    (hnd : (prev.map (fun e => e.path)).Nodup) :
    checkForChanges prev cur = true ↔ ChangedSpec prev cur := by
  have hmap : ∀ p, mapGet (previousMapOf prev) p = prev.find? (fun e => e.path == p) := by
    intro p
    rw [previousMapOf_eq prev hnd, mapGet_map_pairs]
  unfold checkForChanges ChangedSpec
  by_cases hany :
      cur.any (fun pf => isFileChanged (mapGet (previousMapOf prev) pf.1) pf.2) = true
  · rw [if_pos hany]
    simp only [true_iff]
    left
    rw [List.any_eq_true] at hany
    obtain ⟨pf, hmem, hch⟩ := hany
    rw [hmap] at hch
    exact ⟨pf, hmem, (isFileChanged_find_iff prev hnd pf.1 pf.2).mp hch⟩
  · rw [if_neg hany]
    have hnoch : ¬ ∃ pf ∈ cur,
        ((∀ e ∈ prev, e.path ≠ pf.1) ∨
         ∃ e ∈ prev, e.path = pf.1 ∧ (e.mtime ≠ some pf.2.mtime ∨ e.size ≠ some pf.2.size)) := by
      intro ⟨pf, hmem, hcond⟩
      apply hany
      rw [List.any_eq_true]
      refine ⟨pf, hmem, ?_⟩
      rw [hmap]
      exact (isFileChanged_find_iff prev hnd pf.1 pf.2).mpr hcond
    constructor
    · intro hdec
      exact Or.inr (by simpa using hdec)
    · intro hor
      rcases hor with hex | hlen
      · exact absurd hex hnoch
      · simpa using hlen

theorem folderChanged_map_iff (L : List MarkdownMeta)
    (hnd : (L.map (fun e => e.path)).Nodup)
    (fl : List (String × FileMetadata)) :
    folderChanged (L.map (fun e => (e.path, e))) fl = true ↔
      ((∃ pf ∈ fl,
          (∀ e ∈ L, e.path ≠ pf.1) ∨
          ∃ e ∈ L, e.path = pf.1 ∧
            (e.mtime ≠ some pf.2.mtime ∨ e.size ≠ some pf.2.size)) ∨
       L.length ≠ fl.length) := by
  unfold folderChanged
  by_cases hany : fl.any
      (fun pf => isFileChanged (mapGet (L.map (fun e => (e.path, e))) pf.1) pf.2) = true
  · rw [if_pos hany]
    simp only [true_iff]
    left
    rw [List.any_eq_true] at hany
    obtain ⟨pf, hmem, hch⟩ := hany
    rw [mapGet_map_pairs] at hch
    exact ⟨pf, hmem, (isFileChanged_find_iff L hnd pf.1 pf.2).mp hch⟩
  · rw [if_neg hany]
    have hnoch : ¬ ∃ pf ∈ fl,
        ((∀ e ∈ L, e.path ≠ pf.1) ∨
         ∃ e ∈ L, e.path = pf.1 ∧
           (e.mtime ≠ some pf.2.mtime ∨ e.size ≠ some pf.2.size)) := by
      intro ⟨pf, hmem, hcond⟩
      apply hany
      rw [List.any_eq_true]
      refine ⟨pf, hmem, ?_⟩
      rw [mapGet_map_pairs]
      exact (isFileChanged_find_iff L hnd pf.1 pf.2).mpr hcond
    constructor
    · intro hdec
      right
      have h := of_decide_eq_true hdec
      simpa using h
    · intro hor
      rcases hor with hex | hlen
      · exact absurd hex hnoch
      · apply decide_eq_true
        simpa using hlen

theorem prevFilesByFolder_get (prev : List MarkdownMeta)
    (hpnd : (prev.map (fun e => e.path)).Nodup) (folder : String) :
    mapGet (prevFilesByFolder prev) folder =
      if (prevInFolder prev folder).isEmpty then none
      else some ((prevInFolder prev folder).map (fun e => (e.path, e))) := by
  rw [prevFilesByFolder_eq_groupFold, groupFold_get _ _ _ _ hpnd]
  rfl

theorem checkForFolderChanges_mem_iff (prev : List MarkdownMeta)
    (cur : List (String × FileMetadata))
    (hpnd : (prev.map (fun e => e.path)).Nodup) (folder : String) :
    folder ∈ checkForFolderChanges true prev cur ↔
      FolderChangedSpec prev cur folder := by
  have hnd2 : ((prevInFolder prev folder).map (fun e => e.path)).Nodup := by
    have hsub : (prevInFolder prev folder).Sublist prev := List.filter_sublist prev
    exact List.Nodup.sublist (hsub.map (fun e => e.path)) hpnd
  unfold checkForFolderChanges
  simp only [Bool.not_true, Bool.false_eq_true, if_false, List.mem_filterMap]
  constructor
  · rintro ⟨g, hg, hsome⟩
    cases hpg : mapGet (prevFilesByFolder prev) g.1 with
    | none =>
      have hsome2 : (some g.1 : Option String) = some folder := by
        rw [hpg] at hsome
        exact hsome
      have hgf : g.1 = folder := by simpa using hsome2
      rw [prevFilesByFolder_get prev hpnd, hgf] at hpg
      by_cases hemp : (prevInFolder prev folder).isEmpty
      · refine ⟨g.2, ?_, Or.inl ?_⟩
        · rw [← hgf]
          simpa using hg
        · simpa [List.isEmpty_iff] using hemp
      · rw [if_neg hemp] at hpg
        exact absurd hpg (by simp)
    | some pfl =>
      have hsome2 : (if folderChanged pfl g.2 = true then some g.1 else none) =
          some folder := by
        rw [hpg] at hsome
        exact hsome
      by_cases hch : folderChanged pfl g.2 = true
      · rw [if_pos hch] at hsome2
        have hgf : g.1 = folder := by simpa using hsome2
        rw [prevFilesByFolder_get prev hpnd, hgf] at hpg
        by_cases hemp : (prevInFolder prev folder).isEmpty
        · refine ⟨g.2, ?_, Or.inl ?_⟩
          · rw [← hgf]
            simpa using hg
          · simpa [List.isEmpty_iff] using hemp
        · rw [if_neg hemp] at hpg
          have hpfl : pfl = (prevInFolder prev folder).map (fun e => (e.path, e)) := by
            have := hpg.symm
            simpa using this
          rw [hpfl] at hch
          have hiff := (folderChanged_map_iff (prevInFolder prev folder) hnd2 g.2).mp hch
          refine ⟨g.2, ?_, ?_⟩
          · rw [← hgf]
            simpa using hg
          · rcases hiff with hex | hlen
            · exact Or.inr (Or.inl hex)
            · exact Or.inr (Or.inr hlen)
      · rw [if_neg hch] at hsome2
        exact absurd hsome2 (by simp)
  · rintro ⟨fl, hmem, hcond⟩
    refine ⟨(folder, fl), hmem, ?_⟩
    rw [prevFilesByFolder_get prev hpnd]
    by_cases hemp : (prevInFolder prev folder).isEmpty
    · rw [if_pos hemp]
    · rw [if_neg hemp]
      have hnil : ¬ prevInFolder prev folder = [] := by
        intro hc
        exact hemp (by simp [List.isEmpty_iff, hc])
      have hch : folderChanged
          ((prevInFolder prev folder).map (fun e => (e.path, e))) fl = true := by
        rw [folderChanged_map_iff (prevInFolder prev folder) hnd2 fl]
        rcases hcond with hnilc | hex | hlen
        · exact absurd hnilc hnil
        · exact Or.inl hex
        · exact Or.inr hlen
      simp [hch]

instance (previous : List MarkdownMeta) (current : List (String × FileMetadata)) :
    Decidable (ChangedSpec previous current) := by
  unfold ChangedSpec
  infer_instance

/-- C2: change detection compares only modification time and size.
`checkForChanges` reports a change exactly when some current file has no
previous entry with the same relative path, or its recorded mtime or size
differs from the previous entry, or the number of previous entries differs
from the number of current files; the embedding carries no file contents,
so none are ever compared. -/
theorem checkForChanges_mtime_size_iff (prev : List MarkdownMeta)
    (cur : List (String × FileMetadata))
    (hnd : (prev.map (fun e => e.path)).Nodup) :
    checkForChanges prev cur = true ↔ ChangedSpec prev cur :=
  checkForChanges_iff prev cur hnd

/-- Witness for C2: a size change on `a.md` is reported as a change. -/
theorem checkForChanges_mtime_size_iff_witness :
    ChangedSpec [⟨"a", "a.md", none, some 5, some 7⟩] [("a.md", ⟨5, 8⟩)] :=
  (checkForChanges_mtime_size_iff
      [⟨"a", "a.md", none, some 5, some 7⟩] [("a.md", ⟨5, 8⟩)]
      (by decide)).mp (by decide)

/-- C1 counterexample: over a previous manifest for `a.md` and `b.md` in
which only `a.md` changed (new mtime 2), the single-mode build reprocesses
the unchanged `b.md` as well, so the set of reprocessed files is not the set
of changed files the claim describes. -/
theorem singleMode_reprocesses_unchanged_file :
    ("b.md", (⟨1, 1⟩ : FileMetadata)) ∈
      singleModeProcessed
        [⟨"a", "a.md", none, some 1, some 1⟩, ⟨"b", "b.md", none, some 1, some 1⟩]
        [("a.md", ⟨2, 1⟩), ("b.md", ⟨1, 1⟩)] ∧
    isFileChanged
      (mapGet (previousMapOf
        [⟨"a", "a.md", none, some 1, some 1⟩, ⟨"b", "b.md", none, some 1, some 1⟩]) "b.md")
      ⟨1, 1⟩ = false ∧
    singleModeProcessed
        [⟨"a", "a.md", none, some 1, some 1⟩, ⟨"b", "b.md", none, some 1, some 1⟩]
        [("a.md", ⟨2, 1⟩), ("b.md", ⟨1, 1⟩)] ≠
      changedFilesSpec
        [⟨"a", "a.md", none, some 1, some 1⟩, ⟨"b", "b.md", none, some 1, some 1⟩]
        [("a.md", ⟨2, 1⟩), ("b.md", ⟨1, 1⟩)] := by
  refine ⟨by decide, by decide, by decide⟩

/-- C1 (amended): when a previous manifest exists, the incremental build
reprocesses, in single mode, all current files if any file changed (by the
mtime/size/count criterion) and none otherwise; in chunked mode it processes
exactly the folders that are new, contain a changed file, or changed file
count when incremental-by-folder is enabled, and every current folder when it
is disabled. -/
theorem incremental_build_processed_sets (prev : List MarkdownMeta)
    (cur : List (String × FileMetadata))
    (hpnd : (prev.map (fun e => e.path)).Nodup) :
    (ChangedSpec prev cur → singleModeProcessed prev cur = cur) ∧
    (¬ ChangedSpec prev cur → singleModeProcessed prev cur = []) ∧
    (checkForFolderChanges false prev cur =
      (collectFilesByFolder cur).map (fun g => g.1)) ∧
    (∀ folder, folder ∈ checkForFolderChanges true prev cur ↔
      FolderChangedSpec prev cur folder) := by
  refine ⟨?_, ?_, rfl, fun folder => checkForFolderChanges_mem_iff prev cur hpnd folder⟩
  · intro hch
    have := (checkForChanges_iff prev cur hpnd).mpr hch
    simp [singleModeProcessed, this]
  · intro hch
    have hfalse : checkForChanges prev cur = false := by
      cases hc : checkForChanges prev cur with
      | false => rfl
      | true => exact absurd ((checkForChanges_iff prev cur hpnd).mp hc) hch
    simp [singleModeProcessed, hfalse]

/-- Witness for C1 (amended): with an empty previous manifest, the new file
is a change and the whole current set is processed. -/
theorem incremental_build_processed_sets_witness :
    singleModeProcessed [] [("a.md", ⟨1, 2⟩)] = [("a.md", ⟨1, 2⟩)] :=
  (incremental_build_processed_sets [] [("a.md", ⟨1, 2⟩)] (by decide)).1 (by decide)

/-! ### Slug uniqueness (C3) -/

theorem stripExt_inj (ext a b : String) (ha : strEndsWith a ext = true)
    (hb : strEndsWith b ext = true) (h : stripExt ext a = stripExt ext b) : a = b := by
  have hda : a.data.drop (a.data.length - ext.data.length) = ext.data := by
    simpa [strEndsWith] using ha
  have hdb : b.data.drop (b.data.length - ext.data.length) = ext.data := by
    simpa [strEndsWith] using hb
  have htake : a.data.take (a.data.length - ext.data.length) =
      b.data.take (b.data.length - ext.data.length) := by
    have hd := congrArg String.data h
    simpa [stripExt] using hd
  apply String.ext
  calc a.data
      = a.data.take (a.data.length - ext.data.length) ++
        a.data.drop (a.data.length - ext.data.length) :=
        (List.take_append_drop _ _).symm
    _ = b.data.take (b.data.length - ext.data.length) ++
        b.data.drop (b.data.length - ext.data.length) := by rw [htake, hda, hdb]
    _ = b.data := List.take_append_drop _ _

/-- C3: slug uniqueness invariant.  For any set of source files with
pairwise-distinct relative paths all ending in the configured extension, the
slugs entered into the manifest (any subset of the files may survive the
per-file error branch) are pairwise distinct, each slug being the relative
path with the trailing extension removed. -/
theorem build_slugs_nodup (ext : String) (ok : String → Bool)
    (files : List (String × FileMetadata))
    (hnd : (files.map (fun pf => pf.1)).Nodup)
    (hext : ∀ p ∈ files.map (fun pf => pf.1), strEndsWith p ext = true) :
    (buildManifestSlugs ext ok files).Nodup := by
  unfold buildManifestSlugs
  have hslugs : (files.filter (fun pf => ok pf.1)).map (fun pf => stripExt ext pf.1) =
      ((files.filter (fun pf => ok pf.1)).map (fun pf => pf.1)).map (stripExt ext) := by
    rw [List.map_map]
    rfl
  rw [hslugs]
  have hpsub : ((files.filter (fun pf => ok pf.1)).map (fun pf => pf.1)).Sublist
      (files.map (fun pf => pf.1)) :=
    (List.filter_sublist files).map (fun pf => pf.1)
  have hpnd : ((files.filter (fun pf => ok pf.1)).map (fun pf => pf.1)).Nodup :=
    List.Nodup.sublist hpsub hnd
  apply List.Nodup.map_on ?_ hpnd
  intro x hx y hy hxy
  exact stripExt_inj ext x y (hext x (hpsub.subset hx)) (hext y (hpsub.subset hy)) hxy

/-- Witness for C3: two distinct paths both ending in the extension give two
distinct slugs. -/
theorem build_slugs_nodup_witness :
    (buildManifestSlugs ".md" (fun _ => true)
      [("a.md", ⟨1, 1⟩), ("docs/b.md", ⟨2, 2⟩)]).Nodup :=
  build_slugs_nodup ".md" (fun _ => true)
    [("a.md", ⟨1, 1⟩), ("docs/b.md", ⟨2, 2⟩)] (by decide) (by decide)

/-! ### Folder-chunk residence (C4) -/

theorem dirname_empty_head (rel : String) (h : dirname rel = "") :
    rel.data.head? = some '/' := by
  unfold dirname at h
  cases hdw : rel.data.reverse.dropWhile (fun c => c != '/') with
  | nil =>
    rw [hdw] at h
    exact absurd h (by decide)
  | cons c t =>
    rw [hdw] at h
    have ht : t = [] := by
      have hd := congrArg String.data h
      simpa using hd
    have hc : c = '/' := by
      have hfind : rel.data.reverse.find? (fun x => !(x != '/')) = some c := by
        rw [List.find?_not_eq_head?_dropWhile, hdw]
        rfl
      have := List.find?_some hfind
      simpa using this
    have hsplit : rel.data.reverse.takeWhile (fun c => c != '/') ++
        rel.data.reverse.dropWhile (fun c => c != '/') = rel.data.reverse := by
      rw [List.takeWhile_append_dropWhile]
    have hrd : rel.data.reverse =
        rel.data.reverse.takeWhile (fun c => c != '/') ++ [c] := by
      rw [hdw, ht] at hsplit
      exact hsplit.symm
    have hdata : rel.data.head? = some c := by
      have h2 := congrArg List.reverse hrd
      rw [List.reverse_reverse] at h2
      rw [h2]
      simp
    rw [hc] at hdata
    exact hdata

/-- C4: single-chunk residence invariant.  `collectFilesByFolder` assigns
every file to exactly one folder chunk (the chunk keys are pairwise distinct
and every member of a chunk has that chunk's key as the folder of its path,
with top-level files going to `root`), and the folder `getMarkdownDocument`
derives from a manifest entry (`docMeta.folder || 'root'`) is exactly the
chunk key the build used for that path. -/
theorem folder_chunk_residence (files : List (String × FileMetadata))
    (hnd : (files.map (fun pf => pf.1)).Nodup)
    (rel : String) (hhead : rel.data.head? ≠ some '/') :
    (((collectFilesByFolder files).map (fun g => g.1)).Nodup ∧
     (∀ g ∈ collectFilesByFolder files, ∀ pf ∈ g.2, chunkOf pf.1 = g.1 ∧ pf ∈ files) ∧
     (∀ pf ∈ files, ∃ fl, (chunkOf pf.1, fl) ∈ collectFilesByFolder files ∧ pf ∈ fl)) ∧
    lookupFolder (folderOf rel) = chunkOf rel := by
  have hknd : ((collectFilesByFolder files).map (fun g => g.1)).Nodup := by
    rw [collectFilesByFolder_eq_groupFold]
    exact groupFold_keys_nodup _ _ _ _
  refine ⟨⟨hknd, ?_, ?_⟩, ?_⟩
  · intro g hg pf hpf
    obtain ⟨f, fl⟩ := g
    have hget : mapGet (collectFilesByFolder files) f = some fl :=
      (mem_iff_mapGet (collectFilesByFolder files) hknd f fl).mp hg
    rw [collectFilesByFolder_eq_groupFold, groupFold_get _ _ _ _ hnd] at hget
    by_cases hemp : (files.filter (fun e => chunkOf e.1 == f)).isEmpty
    · rw [if_pos hemp] at hget
      exact absurd hget (by simp)
    · rw [if_neg hemp] at hget
      have hfl : fl = files.filter (fun e => chunkOf e.1 == f) := by
        have h2 : fl = (files.filter (fun e => chunkOf e.1 == f)).map
            (fun e => (e.1, e.2)) := by
          have := hget.symm
          simpa using this
        rw [h2, map_pair_eta]
      rw [hfl] at hpf
      constructor
      · have := List.of_mem_filter hpf
        simpa using this
      · exact List.mem_of_mem_filter hpf
  · intro pf hpf
    have hmemf : pf ∈ files.filter (fun e => chunkOf e.1 == chunkOf pf.1) :=
      List.mem_filter.mpr ⟨hpf, by simp⟩
    have hemp : ¬ (files.filter (fun e => chunkOf e.1 == chunkOf pf.1)).isEmpty = true := by
      rw [List.isEmpty_iff]
      intro hc
      rw [hc] at hmemf
      simp at hmemf
    refine ⟨files.filter (fun e => chunkOf e.1 == chunkOf pf.1), ?_, hmemf⟩
    apply (mem_iff_mapGet (collectFilesByFolder files) hknd _ _).mpr
    rw [collectFilesByFolder_eq_groupFold, groupFold_get _ _ _ _ hnd, if_neg hemp,
      map_pair_eta]
  · unfold lookupFolder folderOf chunkOf
    by_cases hd : dirname rel = "."
    · simp [hd]
    · have hne : dirname rel ≠ "" := fun hc => hhead (dirname_empty_head rel hc)
      simp [hd, hne]

/-- Witness for C4: a top-level file and a nested file land in the `root`
and `docs` chunks respectively, and the runtime lookup folder for a nested
path matches its chunk key. -/
theorem folder_chunk_residence_witness :
    lookupFolder (folderOf "docs/b.md") = chunkOf "docs/b.md" :=
  (folder_chunk_residence [("a.md", ⟨1, 1⟩), ("docs/b.md", ⟨2, 2⟩)] (by decide)
    "docs/b.md" (by decide)).2

/-! ### Runtime fetch fallback (C5) -/

/-- C5: runtime fetch fallback.  The compressed attempt targets the base URL
with `.gz` appended; an ok compressed response with a parseable body wins,
any other compressed outcome defers to the uncompressed attempt, and an
error is raised exactly when neither attempt produces a parsed value. -/
theorem fetchContent_fallback (T : Type) (gz base : FetchOutcome T) (url : String) :
    (gzUrlOf url = baseUrlOf url ++ ".gz") ∧
    (∀ t, gz = .okBody t → fetchContent gz base = .ok t) ∧
    ((∀ t, gz ≠ .okBody t) → ∀ t, base = .okBody t → fetchContent gz base = .ok t) ∧
    ((∃ e, fetchContent gz base = .error e) ↔
      ((∀ t, gz ≠ .okBody t) ∧ (∀ t, base ≠ .okBody t))) := by
  refine ⟨rfl, ?_, ?_, ?_⟩
  · intro t ht
    rw [ht]
    rfl
  · intro hgz t hb
    cases gz with
    | okBody t2 => exact absurd rfl (hgz t2)
    | fetchError => rw [hb]; rfl
    | notOk => rw [hb]; rfl
    | okBadBody => rw [hb]; rfl
  · cases gz <;> cases base <;> simp [fetchContent]

/-- Witness for C5: a failed compressed attempt falls back to the parsed
uncompressed body. -/
theorem fetchContent_fallback_witness :
    fetchContent (FetchOutcome.notOk : FetchOutcome Nat) (.okBody 7) = .ok 7 :=
  (fetchContent_fallback Nat .notOk (.okBody 7) "assets/markdown-manifest.json").2.2.1
    (fun t h => by cases h) 7 rfl

/-! ### Global manifest structure (C7) -/

/-- C7: every written global manifest carries the document list unchanged,
has build mode `chunked` exactly when `chunkByFolder` is enabled (`single`
otherwise), and carries the `chunkedFolders` list exactly when
`chunkByFolder` is enabled and a folder list was supplied. -/
theorem writeGlobalManifest_structure (chunkByFolder : Bool)
    (manifest : List MarkdownMeta) (chunkedFolders : Option (List String)) :
    (writeGlobalManifest chunkByFolder manifest chunkedFolders).documents = manifest ∧
    ((writeGlobalManifest chunkByFolder manifest chunkedFolders).buildMode = .chunked ↔
      chunkByFolder = true) ∧
    ((writeGlobalManifest chunkByFolder manifest chunkedFolders).buildMode = .single ↔
      chunkByFolder = false) ∧
    (∀ l, (writeGlobalManifest chunkByFolder manifest chunkedFolders).chunkedFolders =
        some l ↔ (chunkByFolder = true ∧ chunkedFolders = some l)) := by
  cases chunkByFolder <;> simp [writeGlobalManifest]

/-! ### Slug validation (C9) -/

theorem hasDotDot_iff (l : List Char) :
    hasDotDot l = true ↔ ∃ a b, l = a ++ '.' :: '.' :: b := by
  induction l with
  | nil => simp [hasDotDot]
  | cons c rest ih =>
    cases rest with
    | nil =>
      simp only [hasDotDot, Bool.false_eq_true, false_iff]
      rintro ⟨a, b, hab⟩
      have hlen := congrArg List.length hab
      simp at hlen
      omega
    | cons d rest2 =>
      have hshow : hasDotDot (c :: d :: rest2) =
          ((c == '.' && d == '.') || hasDotDot (d :: rest2)) := rfl
      rw [hshow]
      constructor
      · intro h
        rcases Bool.or_eq_true_iff.mp h with hcd | hrec
        · obtain ⟨hc, hd⟩ := Bool.and_eq_true_iff.mp hcd
          have hc2 : c = '.' := by simpa using hc
          have hd2 : d = '.' := by simpa using hd
          exact ⟨[], rest2, by rw [hc2, hd2]; rfl⟩
        · obtain ⟨a, b, hab⟩ := ih.mp hrec
          exact ⟨c :: a, b, by rw [List.cons_append, ← hab]⟩
      · rintro ⟨a, b, hab⟩
        apply Bool.or_eq_true_iff.mpr
        cases a with
        | nil =>
          simp only [List.nil_append] at hab
          obtain ⟨hc, hrest⟩ := List.cons.inj hab
          obtain ⟨hd, _⟩ := List.cons.inj hrest
          left
          simp [hc, hd]
        | cons x a2 =>
          obtain ⟨hcx, hrest⟩ := List.cons.inj hab
          right
          exact ih.mpr ⟨a2, b, hrest⟩

instance (t : String) : Decidable (SlugOkSpec t) :=
  decidable_of_iff
    (t ≠ "" ∧ t.data.all slugCharOk = true ∧ hasDotDot t.data = false ∧
      t.data.head? ≠ some '/' ∧ t.data.getLast? ≠ some '/') (by
    unfold SlugOkSpec
    constructor
    · rintro ⟨h1, h2, h3, h4, h5⟩
      refine ⟨h1, by simpa [List.all_eq_true] using h2, ?_, h4, h5⟩
      intro hex
      have := (hasDotDot_iff t.data).mpr hex
      rw [this] at h3
      exact absurd h3 (by simp)
    · rintro ⟨h1, h2, h3, h4, h5⟩
      refine ⟨h1, by simpa [List.all_eq_true] using h2, ?_, h4, h5⟩
      cases hdd : hasDotDot t.data with
      | false => rfl
      | true => exact absurd ((hasDotDot_iff t.data).mp hdd) h3)

/-- C9: slug validation at the public interface.  `validateDocumentSlug`
returns the trimmed input exactly when the input is a string whose trimmed
form is nonempty, uses only characters in `[a-zA-Z0-9-_/]`, contains no
`..`, and neither starts nor ends with `/`; every failure is a 400 error. -/
theorem validateDocumentSlug_spec (input : SlugInput) :
    (∀ r, validateDocumentSlug input = .ok r ↔
      ∃ s, input = .str s ∧ r = s.trim ∧ SlugOkSpec s.trim) ∧
    (validateDocumentSlug input = .error 400 ↔
      ¬ ∃ s, input = .str s ∧ SlugOkSpec s.trim) ∧
    (∀ e, validateDocumentSlug input = .error e → e = 400) := by
  cases input with
  | nonString =>
    refine ⟨?_, ?_, ?_⟩
    · intro r
      simp [validateDocumentSlug]
    · simp [validateDocumentSlug]
    · intro e he
      simpa [validateDocumentSlug] using he.symm
  | str s =>
    have hval : validateDocumentSlug (.str s) =
        (if s.trim.length = 0 then Except.error 400
         else if !(s.trim.data.all slugCharOk) then .error 400
         else if hasDotDot s.trim.data then .error 400
         else if s.trim.data.head? = some '/' then .error 400
         else if s.trim.data.getLast? = some '/' then .error 400
         else .ok s.trim) := rfl
    have hcases : validateDocumentSlug (.str s) =
        if SlugOkSpec s.trim then .ok s.trim else .error 400 := by
      rw [hval]
      by_cases hok : SlugOkSpec s.trim
      · have hok2 : s.trim ≠ "" ∧ (∀ c ∈ s.trim.data, slugCharOk c = true) ∧
            (¬ ∃ a b, s.trim.data = a ++ '.' :: '.' :: b) ∧
            s.trim.data.head? ≠ some '/' ∧ s.trim.data.getLast? ≠ some '/' := hok
        obtain ⟨hne, hall, hdots, hhead, hlast⟩ := hok2
        have h1 : ¬ s.trim.length = 0 := by
          intro hc
          apply hne
          apply String.ext
          have hd : s.trim.data.length = 0 := hc
          exact List.length_eq_zero.mp hd
        have h2 : s.trim.data.all slugCharOk = true := by
          rw [List.all_eq_true]
          exact hall
        have h3 : ¬ hasDotDot s.trim.data = true := by
          intro hc
          exact hdots ((hasDotDot_iff _).mp hc)
        rw [if_neg h1, if_neg (by simp [h2]), if_neg h3, if_neg hhead, if_neg hlast,
          if_pos hok]
      · rw [if_neg hok]
        by_cases h1 : s.trim.length = 0
        · rw [if_pos h1]
        · rw [if_neg h1]
          by_cases h2 : s.trim.data.all slugCharOk
          · rw [if_neg (by simp [h2])]
            by_cases h3 : hasDotDot s.trim.data
            · rw [if_pos h3]
            · rw [if_neg h3]
              by_cases h4 : s.trim.data.head? = some '/'
              · rw [if_pos h4]
              · rw [if_neg h4]
                by_cases h5 : s.trim.data.getLast? = some '/'
                · rw [if_pos h5]
                · exfalso
                  apply hok
                  refine ⟨?_, by simpa [List.all_eq_true] using h2, ?_, h4, h5⟩
                  · intro hc
                    apply h1
                    rw [hc]
                    rfl
                  · intro hex
                    exact absurd ((hasDotDot_iff _).mpr hex) h3
          · rw [if_pos (by simpa using h2)]
    refine ⟨?_, ?_, ?_⟩
    · intro r
      rw [hcases]
      by_cases hok : SlugOkSpec s.trim
      · rw [if_pos hok]
        constructor
        · intro hr
          have hrt : r = s.trim := by simpa using hr.symm
          exact ⟨s, rfl, hrt, hok⟩
        · rintro ⟨s2, hs2, hr, _⟩
          have hss : s2 = s := by simpa [SlugInput.str.injEq] using hs2.symm
          rw [hr, hss]
      · rw [if_neg hok]
        constructor
        · intro hc
          exact absurd hc (by simp)
        · rintro ⟨s2, hs2, hr, hok2⟩
          have hss : s2 = s := by simpa [SlugInput.str.injEq] using hs2.symm
          rw [hss] at hok2
          exact absurd hok2 hok
    · rw [hcases]
      by_cases hok : SlugOkSpec s.trim
      · rw [if_pos hok]
        constructor
        · intro hc
          exact absurd hc (by simp)
        · intro hno
          exact absurd ⟨s, rfl, hok⟩ hno
      · rw [if_neg hok]
        constructor
        · intro _ hex
          obtain ⟨s2, hs2, hok2⟩ := hex
          have hss : s2 = s := by simpa [SlugInput.str.injEq] using hs2.symm
          rw [hss] at hok2
          exact absurd hok2 hok
        · intro _
          rfl
    · intro e he
      rw [hcases] at he
      by_cases hok : SlugOkSpec s.trim
      · rw [if_pos hok] at he
        exact absurd he (by simp)
      · rw [if_neg hok] at he
        simpa using he.symm

/-- Witness for C9 (for the error conjunct's hypothesis): a non-string input
yields status 400. -/
theorem validateDocumentSlug_spec_witness : (400 : Nat) = 400 :=
  (validateDocumentSlug_spec .nonString).2.2 400 rfl

/-! ### Cache state effects (C6, C10) -/

theorem getGlobalManifest_cache_effect (fG : Except Unit GlobalManifest) (st : DataCache) :
    ((getGlobalManifest fG st).2.1.manifestCache = st.manifestCache ∧
     (getGlobalManifest fG st).2.1.contentCache = st.contentCache ∧
     (getGlobalManifest fG st).2.1.folderContentCache = st.folderContentCache) ∧
    (∀ g, st.globalManifestCache = some g →
      (getGlobalManifest fG st).2.1.globalManifestCache = some g) := by
  unfold getGlobalManifest
  cases hg : st.globalManifestCache with
  | some g => simp [hg]
  | none => cases fG <;> simp [hg]

theorem getMarkdownManifest_cache_effect (fG : Except Unit GlobalManifest)
    (st : DataCache) :
    ((getMarkdownManifest fG st).2.1.contentCache = st.contentCache ∧
     (getMarkdownManifest fG st).2.1.folderContentCache = st.folderContentCache) ∧
    (∀ g, st.globalManifestCache = some g →
      (getMarkdownManifest fG st).2.1.globalManifestCache = some g) ∧
    (∀ m, st.manifestCache = some m → getMarkdownManifest fG st = (m, st, [])) := by
  unfold getMarkdownManifest
  cases hm : st.manifestCache with
  | some m => simp
  | none =>
    have hA := getGlobalManifest_cache_effect fG st
    simp only [hm]
    exact ⟨⟨hA.1.2.1, hA.1.2.2⟩, fun g hg => hA.2 g hg, fun m hm2 => by simp at hm2⟩

theorem getMarkdownContent_cache_effect (fG : Except Unit GlobalManifest)
    (fC : Except Unit ContentMap) (st : DataCache) :
    ((getMarkdownContent fG fC st).2.1.manifestCache = st.manifestCache ∧
     (getMarkdownContent fG fC st).2.1.folderContentCache = st.folderContentCache) ∧
    (∀ g, st.globalManifestCache = some g →
      (getMarkdownContent fG fC st).2.1.globalManifestCache = some g) ∧
    (∀ c, st.contentCache = some c →
      (getMarkdownContent fG fC st).2.1.contentCache = some c) := by
  have hA := getGlobalManifest_cache_effect fG st
  unfold getMarkdownContent
  by_cases hbm : (getGlobalManifest fG st).1.buildMode = BuildMode.chunked
  · simp only [hbm, if_true]
    exact ⟨⟨hA.1.1, hA.1.2.2⟩, fun g hg => hA.2 g hg,
      fun c hc => by rw [hA.1.2.1, hc]⟩
  · simp only [hbm, if_false]
    rw [hA.1.2.1]
    cases hcc : st.contentCache with
    | some c =>
      refine ⟨⟨hA.1.1, hA.1.2.2⟩, fun g hg => hA.2 g hg, fun c2 hc2 => ?_⟩
      show (getGlobalManifest fG st).2.1.contentCache = some c2
      rw [hA.1.2.1, hcc]
      exact hc2
    | none =>
      cases fC with
      | ok c =>
        refine ⟨⟨hA.1.1, hA.1.2.2⟩, fun g hg => hA.2 g hg, fun c2 hc2 => ?_⟩
        exact absurd hc2 (by simp)
      | error e =>
        refine ⟨⟨hA.1.1, hA.1.2.2⟩, fun g hg => hA.2 g hg, fun c2 hc2 => ?_⟩
        exact absurd hc2 (by simp)

theorem loadFolderContent_cache_effect (folder : String)
    (fF : Except Unit ContentMap) (st : DataCache) :
    ((loadFolderContent folder fF st).2.1.manifestCache = st.manifestCache ∧
     (loadFolderContent folder fF st).2.1.globalManifestCache = st.globalManifestCache ∧
     (loadFolderContent folder fF st).2.1.contentCache = st.contentCache) ∧
    (∀ c, mapGet st.folderContentCache folder = some c →
      loadFolderContent folder fF st = (c, st, [])) ∧
    (∀ f2 c, mapGet st.folderContentCache f2 = some c →
      mapGet (loadFolderContent folder fF st).2.1.folderContentCache f2 = some c) := by
  unfold loadFolderContent
  cases hfc : mapGet st.folderContentCache folder with
  | some c => simp
  | none =>
    cases fF with
    | ok c =>
      refine ⟨⟨rfl, rfl, rfl⟩, fun c2 hc2 => by simp at hc2, fun f2 c2 hc2 => ?_⟩
      rw [mapGet_mapSet]
      by_cases hf2 : folder = f2
      · rw [← hf2] at hc2
        rw [hc2] at hfc
        exact absurd hfc (by simp)
      · rw [if_neg hf2]
        exact hc2
    | error e =>
      exact ⟨⟨rfl, rfl, rfl⟩, fun c2 hc2 => by simp at hc2, fun f2 c2 hc2 => hc2⟩

theorem getMarkdownDocument_cache_effect (slug : String)
    (fG1 fG2 : Except Unit GlobalManifest) (fCF : Except Unit ContentMap)
    (st : DataCache) :
    (∀ g, st.globalManifestCache = some g →
      (getMarkdownDocument slug fG1 fG2 fCF st).2.1.globalManifestCache = some g) ∧
    (∀ m, st.manifestCache = some m →
      (getMarkdownDocument slug fG1 fG2 fCF st).2.1.manifestCache = some m) ∧
    (∀ c, st.contentCache = some c →
      (getMarkdownDocument slug fG1 fG2 fCF st).2.1.contentCache = some c) ∧
    (∀ f2 c, mapGet st.folderContentCache f2 = some c →
      mapGet (getMarkdownDocument slug fG1 fG2 fCF st).2.1.folderContentCache f2 =
        some c) := by
  have hA := getGlobalManifest_cache_effect fG1 st
  unfold getMarkdownDocument
  by_cases hbm : (getGlobalManifest fG1 st).1.buildMode = BuildMode.chunked
  · have hB := getMarkdownManifest_cache_effect fG2 (getGlobalManifest fG1 st).2.1
    simp only [hbm, if_true]
    cases hf : (getMarkdownManifest fG2 (getGlobalManifest fG1 st).2.1).1.find?
        (fun d => d.slug == slug) with
    | none =>
      refine ⟨fun g hg => hB.2.1 g (hA.2 g hg), fun m hm => ?_, fun c hc => ?_, ?_⟩
      · rw [hB.2.2 m (by rw [hA.1.1]; exact hm)]
        rw [hA.1.1]
        exact hm
      · rw [hB.1.1, hA.1.2.1]
        exact hc
      · intro f2 c hc
        rw [hB.1.2, hA.1.2.2]
        exact hc
    | some docMeta =>
      have hC := loadFolderContent_cache_effect (lookupFolder docMeta.folder) fCF
        (getMarkdownManifest fG2 (getGlobalManifest fG1 st).2.1).2.1
      refine ⟨fun g hg => ?_, fun m hm => ?_, fun c hc => ?_, fun f2 c hc => ?_⟩
      · rw [hC.1.2.1]
        exact hB.2.1 g (hA.2 g hg)
      · rw [hC.1.1]
        rw [hB.2.2 m (by rw [hA.1.1]; exact hm)]
        rw [hA.1.1]
        exact hm
      · rw [hC.1.2.2, hB.1.1, hA.1.2.1]
        exact hc
      · apply hC.2.2
        rw [hB.1.2, hA.1.2.2]
        exact hc
  · have hD := getMarkdownContent_cache_effect fG2 fCF (getGlobalManifest fG1 st).2.1
    simp only [hbm, if_false]
    refine ⟨fun g hg => hD.2.1 g (hA.2 g hg), fun m hm => ?_, fun c hc => ?_, fun f2 c hc => ?_⟩
    · rw [hD.1.1, hA.1.1]
      exact hm
    · apply hD.2.2
      rw [hA.1.2.1]
      exact hc
    · rw [hD.1.2, hA.1.2.2]
      exact hc

theorem runDataOp_preserves (op : DataOp) (st : DataCache) :
    (∀ g, st.globalManifestCache = some g →
      (runDataOp op st).globalManifestCache = some g) ∧
    (∀ m, st.manifestCache = some m → (runDataOp op st).manifestCache = some m) ∧
    (∀ c, st.contentCache = some c → (runDataOp op st).contentCache = some c) ∧
    (∀ f2 c, mapGet st.folderContentCache f2 = some c →
      mapGet (runDataOp op st).folderContentCache f2 = some c) := by
  cases op with
  | getGM fG =>
    have hA := getGlobalManifest_cache_effect fG st
    refine ⟨hA.2, fun m hm => ?_, fun c hc => ?_, fun f2 c hc => ?_⟩
    · show (getGlobalManifest fG st).2.1.manifestCache = some m
      rw [hA.1.1]
      exact hm
    · show (getGlobalManifest fG st).2.1.contentCache = some c
      rw [hA.1.2.1]
      exact hc
    · show mapGet (getGlobalManifest fG st).2.1.folderContentCache f2 = some c
      rw [hA.1.2.2]
      exact hc
  | getMM fG =>
    have hB := getMarkdownManifest_cache_effect fG st
    refine ⟨hB.2.1, fun m hm => ?_, fun c hc => ?_, fun f2 c hc => ?_⟩
    · show (getMarkdownManifest fG st).2.1.manifestCache = some m
      rw [hB.2.2 m hm]
      exact hm
    · show (getMarkdownManifest fG st).2.1.contentCache = some c
      rw [hB.1.1]
      exact hc
    · show mapGet (getMarkdownManifest fG st).2.1.folderContentCache f2 = some c
      rw [hB.1.2]
      exact hc
  | getMC fG fC =>
    have hD := getMarkdownContent_cache_effect fG fC st
    refine ⟨hD.2.1, fun m hm => ?_, hD.2.2, fun f2 c hc => ?_⟩
    · show (getMarkdownContent fG fC st).2.1.manifestCache = some m
      rw [hD.1.1]
      exact hm
    · show mapGet (getMarkdownContent fG fC st).2.1.folderContentCache f2 = some c
      rw [hD.1.2]
      exact hc
  | getMD slug fG1 fG2 fCF =>
    exact getMarkdownDocument_cache_effect slug fG1 fG2 fCF st
  | loadFC folder fF =>
    have hC := loadFolderContent_cache_effect folder fF st
    refine ⟨fun g hg => ?_, fun m hm => ?_, fun c hc => ?_, hC.2.2⟩
    · show (loadFolderContent folder fF st).2.1.globalManifestCache = some g
      rw [hC.1.2.1]
      exact hg
    · show (loadFolderContent folder fF st).2.1.manifestCache = some m
      rw [hC.1.1]
      exact hm
    · show (loadFolderContent folder fF st).2.1.contentCache = some c
      rw [hC.1.2.2]
      exact hc

/-- C6 counterexample: after `getMarkdownContent` has returned a
successfully fetched content map (the first call's manifest fetch failed, so
the default single-mode manifest was used and the content cache was
populated), a later call whose manifest fetch reports a chunked build
returns the empty record instead of the cached value — the claim's "every
subsequent call returns that same cached value" fails on the code. -/
theorem getMarkdownContent_cache_bypass :
    (getMarkdownContent (.error ())
        (.ok [("a", ⟨[], "hi"⟩)]) emptyCache).1 = [("a", ⟨[], "hi"⟩)] ∧
    ((getMarkdownContent (.error ())
        (.ok [("a", ⟨[], "hi"⟩)]) emptyCache).2.1).contentCache =
      some [("a", ⟨[], "hi"⟩)] ∧
    (getMarkdownContent (.ok ⟨[], .chunked, none⟩) (.ok [("a", ⟨[], "hi"⟩)])
        (getMarkdownContent (.error ())
          (.ok [("a", ⟨[], "hi"⟩)]) emptyCache).2.1).1 ≠
      [("a", ⟨[], "hi"⟩)] := by
  refine ⟨rfl, rfl, ?_⟩
  decide

/-- C6 (amended): each cache, once populated, is returned by every later
call of its function without re-fetching its resource, regardless of the
fetch oracles (the arguments), until `clearMarkdownCache` resets everything;
error branches never populate a cache and no operation evicts a populated
one.  The one correction to the claim: a later `getMarkdownContent` call
returns the cached content map only while its global-manifest step reports a
non-chunked build — a chunked manifest bypasses the content cache. -/
theorem markdown_data_cache_amended :
    (∀ (fG : Except Unit GlobalManifest) (st : DataCache) (g : GlobalManifest),
      st.globalManifestCache = some g → getGlobalManifest fG st = (g, st, [])) ∧
    (∀ (fG : Except Unit GlobalManifest) (st : DataCache) (m : List MarkdownMeta),
      st.manifestCache = some m → getMarkdownManifest fG st = (m, st, [])) ∧
    (∀ (folder : String) (fF : Except Unit ContentMap) (st : DataCache)
      (c : ContentMap), mapGet st.folderContentCache folder = some c →
      loadFolderContent folder fF st = (c, st, [])) ∧
    (∀ (fG : Except Unit GlobalManifest) (fC : Except Unit ContentMap)
      (st : DataCache) (c : ContentMap), st.contentCache = some c →
      (getGlobalManifest fG st).1.buildMode ≠ .chunked →
      (getMarkdownContent fG fC st).1 = c ∧
      FetchEvent.content ∉ (getMarkdownContent fG fC st).2.2) ∧
    (∀ st : DataCache, st.globalManifestCache = none →
      (getGlobalManifest (.error ()) st).2.1 = st) ∧
    (∀ (fG : Except Unit GlobalManifest) (st : DataCache),
      st.contentCache = none →
      ((getMarkdownContent fG (.error ()) st).2.1).contentCache = none) ∧
    (∀ (folder : String) (st : DataCache),
      mapGet st.folderContentCache folder = none →
      (loadFolderContent folder (.error ()) st).2.1 = st) ∧
    (∀ (op : DataOp) (st : DataCache),
      (∀ g, st.globalManifestCache = some g →
        (runDataOp op st).globalManifestCache = some g) ∧
      (∀ m, st.manifestCache = some m → (runDataOp op st).manifestCache = some m) ∧
      (∀ c, st.contentCache = some c → (runDataOp op st).contentCache = some c) ∧
      (∀ f2 c, mapGet st.folderContentCache f2 = some c →
        mapGet (runDataOp op st).folderContentCache f2 = some c)) ∧
    (∀ st : DataCache, clearMarkdownCache st = emptyCache) := by
  refine ⟨?_, ?_, ?_, ?_, ?_, ?_, ?_, runDataOp_preserves, fun st => rfl⟩
  · intro fG st g hg
    unfold getGlobalManifest
    rw [hg]
  · intro fG st m hm
    exact (getMarkdownManifest_cache_effect fG st).2.2 m hm
  · intro folder fF st c hc
    exact (loadFolderContent_cache_effect folder fF st).2.1 c hc
  · intro fG fC st c hc hbm
    have hA := getGlobalManifest_cache_effect fG st
    have hev : (getGlobalManifest fG st).2.2 = [] ∨
        (getGlobalManifest fG st).2.2 = [FetchEvent.manifest] := by
      unfold getGlobalManifest
      cases st.globalManifestCache with
      | some g => exact Or.inl rfl
      | none => cases fG <;> simp
    unfold getMarkdownContent
    simp only [hbm, if_false]
    rw [hA.1.2.1, hc]
    constructor
    · rfl
    · show FetchEvent.content ∉ (getGlobalManifest fG st).2.2
      rcases hev with h | h <;> simp [h]
  · intro st hg
    unfold getGlobalManifest
    rw [hg]
  · intro fG st hc
    have hA := getGlobalManifest_cache_effect fG st
    unfold getMarkdownContent
    by_cases hbm : (getGlobalManifest fG st).1.buildMode = BuildMode.chunked
    · simp only [hbm, if_true]
      rw [hA.1.2.1]
      exact hc
    · simp only [hbm, if_false]
      rw [hA.1.2.1, hc]
      show (getGlobalManifest fG st).2.1.contentCache = none
      rw [hA.1.2.1]
      exact hc
  · intro folder st hc
    unfold loadFolderContent
    rw [hc]

/-- Witness for C6 (amended): a populated global-manifest cache is returned
unchanged with no fetch. -/
theorem markdown_data_cache_amended_witness :
    getGlobalManifest (.error ())
        { emptyCache with globalManifestCache := some ⟨[], .single, none⟩ } =
      (⟨[], .single, none⟩,
       { emptyCache with globalManifestCache := some ⟨[], .single, none⟩ }, []) :=
  markdown_data_cache_amended.1 (.error ())
    { emptyCache with globalManifestCache := some ⟨[], .single, none⟩ }
    ⟨[], .single, none⟩ rfl

/-- C10 counterexample: in chunked mode with the slug present in the
manifest but the folder chunk fetch failing, `getMarkdownDocument` returns
null, so "returning the document's content record otherwise" fails; the
lookup still does not throw. -/
theorem getMarkdownDocument_null_despite_manifest :
    ((getMarkdownDocument "a"
        (.ok ⟨[⟨"a", "a.md", none, some 1, some 1⟩], .chunked, none⟩)
        (.ok ⟨[⟨"a", "a.md", none, some 1, some 1⟩], .chunked, none⟩)
        (.error ()) emptyCache).1 = none) ∧
    (∃ d ∈ (⟨[⟨"a", "a.md", none, some 1, some 1⟩], .chunked, none⟩
        : GlobalManifest).documents, d.slug = "a") := by
  refine ⟨rfl, ?_⟩
  refine ⟨⟨"a", "a.md", none, some 1, some 1⟩, ?_, rfl⟩
  simp

/-- C10 (amended): `getMarkdownDocument` is total over every combination of
fetch outcomes (each internal failure is absorbed into a default manifest or
empty content map, so no call throws); in chunked mode it returns null
whenever the slug is absent from the manifest and otherwise returns the
looked-up folder chunk's record for the slug — null when the chunk could not
be fetched or lacks the slug; in single mode it returns exactly the content
map's record for the slug, null when absent. -/
theorem getMarkdownDocument_total_lookup (slug : String)
    (fG1 fG2 : Except Unit GlobalManifest) (fCF : Except Unit ContentMap)
    (st : DataCache) :
    ((getGlobalManifest fG1 st).1.buildMode = .chunked →
      ((∀ d ∈ (getMarkdownManifest fG2 (getGlobalManifest fG1 st).2.1).1,
          d.slug ≠ slug) →
        (getMarkdownDocument slug fG1 fG2 fCF st).1 = none) ∧
      (∀ docMeta,
        (getMarkdownManifest fG2 (getGlobalManifest fG1 st).2.1).1.find?
            (fun d => d.slug == slug) = some docMeta →
        (getMarkdownDocument slug fG1 fG2 fCF st).1 =
          mapGet (loadFolderContent (lookupFolder docMeta.folder) fCF
            (getMarkdownManifest fG2 (getGlobalManifest fG1 st).2.1).2.1).1 slug)) ∧
    ((getGlobalManifest fG1 st).1.buildMode ≠ .chunked →
      (getMarkdownDocument slug fG1 fG2 fCF st).1 =
        mapGet (getMarkdownContent fG2 fCF (getGlobalManifest fG1 st).2.1).1 slug) := by
  constructor
  · intro hbm
    constructor
    · intro habs
      have hfind : (getMarkdownManifest fG2 (getGlobalManifest fG1 st).2.1).1.find?
          (fun d => d.slug == slug) = none := by
        rw [List.find?_eq_none]
        intro d hd
        simpa using habs d hd
      unfold getMarkdownDocument
      simp only [hbm, if_true, hfind]
    · intro docMeta hfind
      unfold getMarkdownDocument
      simp only [hbm, if_true, hfind]
  · intro hbm
    unfold getMarkdownDocument
    simp only [hbm, if_false]

/-- Witness for C10 (amended): with every fetch failing, the single-mode
branch applies and yields the (empty) content map's lookup. -/
theorem getMarkdownDocument_total_lookup_witness :
    (getMarkdownDocument "a" (.error ()) (.error ()) (.error ()) emptyCache).1 =
      mapGet (getMarkdownContent (.error ()) (.error ())
        (getGlobalManifest (.error ()) emptyCache).2.1).1 "a" :=
  (getMarkdownDocument_total_lookup "a" (.error ()) (.error ()) (.error ())
    emptyCache).2 (by decide)

/-! ## Bounded worker pool (src/plugins/markdown-plugin.ts lines 618-639)

`execConcurrently` is asynchronous control flow, embedded as a small-step
transition system.  The driver walks the item list, starting one handler per
item (a task); each running task settles (fulfils or rejects — the driver
treats both alike, every `await` being wrapped in a catch) at an arbitrary
later step taken by the environment.  The driver's control points follow the
source: the `for` loop head; blocked on `await Promise.race(executing)`
after the pool filled to the limit; the downward sweep loop that awaits and
splices `executing[i]` (which, awaiting from the top index down, drains the
whole array); the final `Promise.allSettled`; and completion.  Tasks carry
their invocation index so that settlement order is observable. -/

inductive PC where
  | loop
  | race
  | sweep (i : Nat)
  | final
  | done
deriving DecidableEq, Repr

structure PoolState (T : Type) where
  queue : List T
  started : List T
  executing : List (Nat × Bool)
  settleOrder : List Nat
  pc : PC

def initState {T : Type} (items : List T) : PoolState T :=
  ⟨items, [], [], [], .loop⟩

/-- Count of handler invocations that are pending (started, not settled). -/
def pendingCount {T : Type} (s : PoolState T) : Nat :=
  (s.executing.filter (fun e => !e.2)).length

inductive Step {T : Type} (limit : Nat) : PoolState T → PoolState T → Prop where
  | settle (s : PoolState T) (i : Nat) (hi : i < s.executing.length)
      (hp : (s.executing.get ⟨i, hi⟩).2 = false) :
      Step limit s ⟨s.queue, s.started,
        s.executing.set i ((s.executing.get ⟨i, hi⟩).1, true),
        s.settleOrder ++ [(s.executing.get ⟨i, hi⟩).1], s.pc⟩
  | push (s : PoolState T) (x : T) (rest : List T)
      (hq : s.queue = x :: rest) (hpc : s.pc = .loop) :
      Step limit s ⟨rest, s.started ++ [x],
        s.executing ++ [(s.started.length, false)], s.settleOrder,
        if limit ≤ s.executing.length + 1 then .race else .loop⟩
  | toFinal (s : PoolState T) (hq : s.queue = []) (hpc : s.pc = .loop) :
      Step limit s ⟨s.queue, s.started, s.executing, s.settleOrder, .final⟩
  | raceDone (s : PoolState T) (hpc : s.pc = .race)
      (hsome : ∃ e ∈ s.executing, e.2 = true) :
      Step limit s ⟨s.queue, s.started, s.executing, s.settleOrder,
        .sweep (s.executing.length - 1)⟩
  | sweepHit (s : PoolState T) (i : Nat) (hpc : s.pc = .sweep i)
      (hi : i < s.executing.length) (hs : (s.executing.get ⟨i, hi⟩).2 = true) :
      Step limit s ⟨s.queue, s.started, s.executing.eraseIdx i, s.settleOrder,
        if i = 0 then .loop else .sweep (i - 1)⟩
  | allSettled (s : PoolState T) (hpc : s.pc = .final)
      (hall : ∀ e ∈ s.executing, e.2 = true) :
      Step limit s ⟨s.queue, s.started, s.executing, s.settleOrder, .done⟩

def Reachable {T : Type} (limit : Nat) (items : List T) (s : PoolState T) : Prop :=
  Relation.ReflTransGen (Step limit) (initState items) s

/-- Rank of a control point; part of the termination measure. -/
def pcRank : PC → Nat
  | .loop => 4
  | .race => 3
  | .sweep _ => 2
  | .final => 1
  | .done => 0

/-- Strictly decreasing measure: every step of the pool decreases it. -/
def poolMeasure {T : Type} (s : PoolState T) : Nat :=
  10 * s.queue.length + 3 * s.executing.length + pendingCount s + pcRank s.pc

/-- Inductive invariant of the pool. -/
def PoolInv {T : Type} (limit : Nat) (items : List T) (s : PoolState T) : Prop :=
  s.started ++ s.queue = items ∧
  s.executing.length ≤ limit ∧
  (s.pc = .loop → s.executing.length < limit) ∧
  (s.pc = .race → 1 ≤ s.executing.length) ∧
  (∀ i, s.pc = .sweep i → i + 1 = s.executing.length) ∧
  (s.pc = .final → s.queue = []) ∧
  (s.pc = .done → s.queue = [])

theorem filter_set_false_true (l : List (Nat × Bool)) (i : Nat) (hi : i < l.length)
    (hp : (l.get ⟨i, hi⟩).2 = false) (n : Nat) :
    ((l.set i (n, true)).filter (fun e => !e.2)).length + 1 =
      (l.filter (fun e => !e.2)).length := by
  induction l generalizing i with
  | nil => simp at hi
  | cons a t ih =>
    cases i with
    | zero =>
      have hpa : a.2 = false := hp
      simp [List.filter_cons, hpa]
    | succ j =>
      have hj : j < t.length := by simpa using hi
      have hp2 : (t.get ⟨j, hj⟩).2 = false := hp
      have hih := ih j hj hp2
      cases hpa : a.2 with
      | false => simpa [List.filter_cons, hpa] using hih
      | true => simpa [List.filter_cons, hpa] using hih

theorem filter_eraseIdx_le (l : List (Nat × Bool)) (i : Nat) :
    ((l.eraseIdx i).filter (fun e => !e.2)).length ≤
      (l.filter (fun e => !e.2)).length := by
  induction l generalizing i with
  | nil => simp
  | cons a t ih =>
    cases i with
    | zero =>
      cases hpa : a.2 with
      | false =>
        simp only [List.eraseIdx, List.filter_cons, hpa]
        simp
      | true =>
        simp only [List.eraseIdx, List.filter_cons, hpa]
        simp
    | succ j =>
      cases hpa : a.2 with
      | false =>
        simp only [List.eraseIdx, List.filter_cons, hpa]
        simpa using ih j
      | true =>
        simp only [List.eraseIdx, List.filter_cons, hpa]
        simpa using ih j

theorem poolInv_init {T : Type} (limit : Nat) (items : List T) (h : 1 ≤ limit) :
    PoolInv limit items (initState items) := by
  refine ⟨rfl, by simp [initState], fun _ => by simpa [initState] using h,
    ?_, ?_, ?_, ?_⟩ <;> simp [initState]

theorem poolInv_step {T : Type} (limit : Nat) (items : List T) (_hlim : 1 ≤ limit)
    (s s2 : PoolState T) (hinv : PoolInv limit items s) (hst : Step limit s s2) :
    PoolInv limit items s2 := by
  obtain ⟨h1, h2, h3, h4, h5, h6, h7⟩ := hinv
  cases hst with
  | settle i hi hp =>
    refine ⟨h1, by simpa using h2, by simpa using h3, by simpa using h4,
      ?_, h6, h7⟩
    intro j hj
    have := h5 j hj
    simpa using this
  | push x rest hq hpc =>
    have hlen : s.executing.length < limit := h3 hpc
    refine ⟨?_, ?_, ?_, ?_, ?_, ?_, ?_⟩
    · show (s.started ++ [x]) ++ rest = items
      rw [List.append_assoc]
      rw [← h1, hq]
      rfl
    · show (s.executing ++ [(s.started.length, false)]).length ≤ limit
      simp only [List.length_append, List.length_singleton]
      omega
    · intro hpc2
      show (s.executing ++ [(s.started.length, false)]).length < limit
      simp only [List.length_append, List.length_singleton]
      by_cases hif : limit ≤ s.executing.length + 1
      · simp only [if_pos hif] at hpc2
        exact absurd hpc2 (by simp)
      · omega
    · intro _
      show 1 ≤ (s.executing ++ [(s.started.length, false)]).length
      simp
    · intro j hj
      by_cases hif : limit ≤ s.executing.length + 1 <;> simp [hif] at hj
    · intro hpc2
      by_cases hif : limit ≤ s.executing.length + 1 <;> simp [hif] at hpc2
    · intro hpc2
      by_cases hif : limit ≤ s.executing.length + 1 <;> simp [hif] at hpc2
  | toFinal hq hpc =>
    exact ⟨h1, h2, by simp, by simp, by simp, fun _ => hq, by simp⟩
  | raceDone hpc hsome =>
    refine ⟨h1, h2, by simp, by simp, ?_, by simp, by simp⟩
    intro j hj
    have hlen : 1 ≤ s.executing.length := h4 hpc
    have hj2 : j = s.executing.length - 1 := by
      have := hj
      simp only [PC.sweep.injEq] at this
      exact this.symm
    show j + 1 = s.executing.length
    omega
  | sweepHit i hpc hi hs =>
    have hieq : i + 1 = s.executing.length := h5 i hpc
    have hlen : (s.executing.eraseIdx i).length = s.executing.length - 1 := by
      rw [List.length_eraseIdx]
      simp [hi]
    refine ⟨h1, ?_, ?_, ?_, ?_, ?_, ?_⟩
    · show (s.executing.eraseIdx i).length ≤ limit
      omega
    · intro hpc2
      show (s.executing.eraseIdx i).length < limit
      by_cases hz : i = 0
      · omega
      · simp [hz] at hpc2
    · intro hpc2
      by_cases hz : i = 0 <;> simp [hz] at hpc2
    · intro j hj
      by_cases hz : i = 0
      · simp [hz] at hj
      · simp only [hz, if_false, PC.sweep.injEq] at hj
        rw [← hj, hlen]
        omega
    · intro hpc2
      by_cases hz : i = 0 <;> simp [hz] at hpc2
    · intro hpc2
      by_cases hz : i = 0 <;> simp [hz] at hpc2
  | allSettled hpc hall =>
    exact ⟨h1, h2, by simp, by simp, by simp, by simp, fun _ => h6 hpc⟩

theorem poolInv_reachable {T : Type} (limit : Nat) (items : List T) (hlim : 1 ≤ limit)
    (s : PoolState T) (hr : Reachable limit items s) : PoolInv limit items s := by
  induction hr with
  | refl => exact poolInv_init limit items hlim
  | tail hsteps hstep ih => exact poolInv_step limit items hlim _ _ ih hstep

theorem pool_progress {T : Type} (limit : Nat) (items : List T)
    (s : PoolState T) (hinv : PoolInv limit items s) (hne : s.pc ≠ PC.done) :
    ∃ s2, Step limit s s2 := by
  obtain ⟨h1, h2, h3, h4, h5, h6, h7⟩ := hinv
  cases hpc : s.pc with
  | loop =>
    cases hq : s.queue with
    | nil => exact ⟨_, Step.toFinal s hq hpc⟩
    | cons x rest => exact ⟨_, Step.push s x rest hq hpc⟩
  | race =>
    by_cases hsome : ∃ e ∈ s.executing, e.2 = true
    · exact ⟨_, Step.raceDone s hpc hsome⟩
    · have hlen : 1 ≤ s.executing.length := h4 hpc
      have h0 : 0 < s.executing.length := hlen
      have hp : (s.executing.get ⟨0, h0⟩).2 = false := by
        cases hb : (s.executing.get ⟨0, h0⟩).2 with
        | false => rfl
        | true =>
          exact absurd ⟨s.executing.get ⟨0, h0⟩, s.executing.get_mem 0 h0, hb⟩ hsome
      exact ⟨_, Step.settle s 0 h0 hp⟩
  | sweep i =>
    have hieq : i + 1 = s.executing.length := h5 i hpc
    have hi : i < s.executing.length := by omega
    cases hb : (s.executing.get ⟨i, hi⟩).2 with
    | true => exact ⟨_, Step.sweepHit s i hpc hi hb⟩
    | false => exact ⟨_, Step.settle s i hi hb⟩
  | final =>
    by_cases hall : ∀ e ∈ s.executing, e.2 = true
    · exact ⟨_, Step.allSettled s hpc hall⟩
    · push_neg at hall
      obtain ⟨e, he, hbe⟩ := hall
      obtain ⟨i, hie⟩ := List.mem_iff_get.mp he
      have hp : (s.executing.get i).2 = false := by
        rw [hie]
        simpa using hbe
      exact ⟨_, Step.settle s i.1 i.2 hp⟩
  | done => exact absurd hpc hne

theorem pool_measure_decreases {T : Type} (limit : Nat) (s s2 : PoolState T)
    (hst : Step limit s s2) : poolMeasure s2 < poolMeasure s := by
  cases hst with
  | settle i hi hp =>
    have hpend := filter_set_false_true s.executing i hi hp
      (s.executing.get ⟨i, hi⟩).1
    show 10 * s.queue.length +
        3 * (s.executing.set i ((s.executing.get ⟨i, hi⟩).1, true)).length +
        ((s.executing.set i ((s.executing.get ⟨i, hi⟩).1, true)).filter
          (fun e => !e.2)).length + pcRank s.pc <
      10 * s.queue.length + 3 * s.executing.length +
        (s.executing.filter (fun e => !e.2)).length + pcRank s.pc
    have hlen : (s.executing.set i ((s.executing.get ⟨i, hi⟩).1, true)).length =
        s.executing.length := by simp
    omega
  | push x rest hq hpc =>
    have hq2 : s.queue.length = rest.length + 1 := by rw [hq]; rfl
    have hpend : ((s.executing ++ [(s.started.length, false)]).filter
        (fun e => !e.2)).length = (s.executing.filter (fun e => !e.2)).length + 1 := by
      simp [List.filter_append]
    have hrank : pcRank (if limit ≤ s.executing.length + 1 then PC.race else PC.loop) ≤ 4 := by
      by_cases hif : limit ≤ s.executing.length + 1 <;> simp [hif, pcRank]
    have hrank2 : pcRank s.pc = 4 := by rw [hpc]; rfl
    show 10 * rest.length + 3 * (s.executing ++ [(s.started.length, false)]).length +
        ((s.executing ++ [(s.started.length, false)]).filter (fun e => !e.2)).length +
        pcRank (if limit ≤ s.executing.length + 1 then PC.race else PC.loop) <
      10 * s.queue.length + 3 * s.executing.length +
        (s.executing.filter (fun e => !e.2)).length + pcRank s.pc
    have hlen : (s.executing ++ [(s.started.length, false)]).length =
        s.executing.length + 1 := by simp
    omega
  | toFinal hq hpc =>
    have hrank2 : pcRank s.pc = 4 := by rw [hpc]; rfl
    show 10 * s.queue.length + 3 * s.executing.length +
        (s.executing.filter (fun e => !e.2)).length + pcRank PC.final <
      10 * s.queue.length + 3 * s.executing.length +
        (s.executing.filter (fun e => !e.2)).length + pcRank s.pc
    rw [hrank2]
    simp [pcRank]
  | raceDone hpc hsome =>
    have hrank2 : pcRank s.pc = 3 := by rw [hpc]; rfl
    show 10 * s.queue.length + 3 * s.executing.length +
        (s.executing.filter (fun e => !e.2)).length +
        pcRank (PC.sweep (s.executing.length - 1)) <
      10 * s.queue.length + 3 * s.executing.length +
        (s.executing.filter (fun e => !e.2)).length + pcRank s.pc
    rw [hrank2]
    simp [pcRank]
  | sweepHit i hpc hi hs =>
    have hlen : (s.executing.eraseIdx i).length = s.executing.length - 1 := by
      rw [List.length_eraseIdx]
      simp [hi]
    have hpend := filter_eraseIdx_le s.executing i
    have hrank2 : pcRank s.pc = 2 := by rw [hpc]; rfl
    have hrank : pcRank (if i = 0 then PC.loop else PC.sweep (i - 1)) ≤ 4 := by
      by_cases hz : i = 0 <;> simp [hz, pcRank]
    show 10 * s.queue.length + 3 * (s.executing.eraseIdx i).length +
        ((s.executing.eraseIdx i).filter (fun e => !e.2)).length +
        pcRank (if i = 0 then PC.loop else PC.sweep (i - 1)) <
      10 * s.queue.length + 3 * s.executing.length +
        (s.executing.filter (fun e => !e.2)).length + pcRank s.pc
    omega
  | allSettled hpc hall =>
    have hrank2 : pcRank s.pc = 1 := by rw [hpc]; rfl
    show 10 * s.queue.length + 3 * s.executing.length +
        (s.executing.filter (fun e => !e.2)).length + pcRank PC.done <
      10 * s.queue.length + 3 * s.executing.length +
        (s.executing.filter (fun e => !e.2)).length + pcRank s.pc
    rw [hrank2]
    simp [pcRank]

/-- C8: bounded worker pool.  For every item list and concurrency limit of
at least 1: (i) in every reachable state at most `limit` handler invocations
are pending at once; (ii) when the driver completes, the started list is
exactly the item list — each item's handler was invoked exactly once, in
list order; (iii) no reachable non-final state is stuck, even though settling
covers rejected handlers (every await is wrapped in a catch), so the pool
always completes; (iv) every step strictly decreases a natural measure, so
no infinite run exists; and (v) completion order is not guaranteed: two runs
over the same two items reach completion with opposite settlement orders. -/
theorem execConcurrently_pool_spec :
    (∀ (T : Type) (items : List T) (limit : Nat), 1 ≤ limit →
      (∀ s : PoolState T, Reachable limit items s → pendingCount s ≤ limit) ∧
      (∀ s : PoolState T, Reachable limit items s → s.pc = PC.done →
        s.started = items) ∧
      (∀ s : PoolState T, Reachable limit items s → s.pc ≠ PC.done →
        ∃ s2, Step limit s s2) ∧
      (∀ s s2 : PoolState T, Step limit s s2 → poolMeasure s2 < poolMeasure s)) ∧
    (∃ s1 s2 : PoolState Nat, Reachable 2 [0, 1] s1 ∧ Reachable 2 [0, 1] s2 ∧
      s1.pc = PC.done ∧ s2.pc = PC.done ∧ s1.settleOrder ≠ s2.settleOrder) := by
  constructor
  · intro T items limit hlim
    refine ⟨?_, ?_, ?_, fun s s2 => pool_measure_decreases limit s s2⟩
    · intro s hr
      have hinv := poolInv_reachable limit items hlim s hr
      calc pendingCount s ≤ s.executing.length := List.length_filter_le _ _
        _ ≤ limit := hinv.2.1
    · intro s hr hdone
      have hinv := poolInv_reachable limit items hlim s hr
      have hq : s.queue = [] := hinv.2.2.2.2.2.2 hdone
      have := hinv.1
      rw [hq] at this
      simpa using this
    · intro s hr hne
      exact pool_progress limit items s (poolInv_reachable limit items hlim s hr) hne
  · refine ⟨⟨[], [0, 1], [], [0, 1], PC.done⟩, ⟨[], [0, 1], [], [1, 0], PC.done⟩,
      ?_, ?_, rfl, rfl, by decide⟩
    · apply Relation.ReflTransGen.head
        (Step.push (initState ([0, 1] : List Nat)) 0 [1] rfl rfl)
      apply Relation.ReflTransGen.head (Step.push _ 1 [] rfl rfl)
      apply Relation.ReflTransGen.head (Step.settle _ 0 (by decide) (by decide))
      apply Relation.ReflTransGen.head (Step.settle _ 1 (by decide) (by decide))
      apply Relation.ReflTransGen.head (Step.raceDone _ rfl (by decide))
      apply Relation.ReflTransGen.head (Step.sweepHit _ 1 rfl (by decide) (by decide))
      apply Relation.ReflTransGen.head (Step.sweepHit _ 0 rfl (by decide) (by decide))
      apply Relation.ReflTransGen.head (Step.toFinal _ rfl rfl)
      apply Relation.ReflTransGen.head (Step.allSettled _ rfl (by decide))
      exact Relation.ReflTransGen.refl
    · apply Relation.ReflTransGen.head
        (Step.push (initState ([0, 1] : List Nat)) 0 [1] rfl rfl)
      apply Relation.ReflTransGen.head (Step.push _ 1 [] rfl rfl)
      apply Relation.ReflTransGen.head (Step.settle _ 1 (by decide) (by decide))
      apply Relation.ReflTransGen.head (Step.settle _ 0 (by decide) (by decide))
      apply Relation.ReflTransGen.head (Step.raceDone _ rfl (by decide))
      apply Relation.ReflTransGen.head (Step.sweepHit _ 1 rfl (by decide) (by decide))
      apply Relation.ReflTransGen.head (Step.sweepHit _ 0 rfl (by decide) (by decide))
      apply Relation.ReflTransGen.head (Step.toFinal _ rfl rfl)
      apply Relation.ReflTransGen.head (Step.allSettled _ rfl (by decide))
      exact Relation.ReflTransGen.refl

/-- Witness for C8: with one item and limit 1, the initial state has no
pending invocation, within the bound. -/
theorem execConcurrently_pool_spec_witness :
    pendingCount (initState ([0] : List Nat)) ≤ 1 :=
  (execConcurrently_pool_spec.1 Nat [0] 1 (by decide)).1
    (initState [0]) Relation.ReflTransGen.refl
